import Mathlib

/-!
Verification development for the klavier-helper ordered store library.

The single-value store (src/store.rs) keeps a `Vec<(K, T)>` sorted strictly
ascending by key and locates positions with `binary_search_by_key`.  We embed
the backing vector as a `List (K × T)`; `searchKey` computes the result that
`binary_search_by_key` is specified to return on a sorted slice
(`Ok i` = exact match at `i`, `Err i` = insertion point), by a linear scan
that is extensionally equal to binary search on sorted input.

The bag store (src/bag_store.rs) keeps a `BTreeMap<K, Vec<T>>`; we embed it
as a key-sorted association list `List (K × List T)` with first-match
get/set/erase operations, which agree with the B-tree map on its unique-key
well-formed states.
-/

set_option maxHeartbeats 1000000

section Helpers

variable {K : Type} {A : Type} {T : Type} [LinearOrder K]

/-- Result of `binary_search_by_key` on a sorted slice: `Sum.inl i` models
`Ok(i)` (exact match at position `i`), `Sum.inr i` models `Err(i)`
(insertion point preserving order). -/
def searchKey : List (K × A) → K → Nat ⊕ Nat
  | [], _ => Sum.inr 0
  | (k, _) :: tl, key =>
    if k < key then
      match searchKey tl key with
      | Sum.inl i => Sum.inl (i + 1)
      | Sum.inr i => Sum.inr (i + 1)
    else if k = key then Sum.inl 0
    else Sum.inr 0

/-- First-match lookup in an association list (the value stored under a key). -/
def lookupKey : List (K × A) → K → Option A
  | [], _ => none
  | (k, v) :: tl, key => if k = key then some v else lookupKey tl key

/-- Left-biased choice on options (used to state bulk-insert lookup laws). -/
def firstSome (a b : Option A) : Option A :=
  match a with
  | some v => some v
  | none => b

/-- `Store::add_internal`: binary search; on `Ok(i)` overwrite slot `i`
returning the displaced value, on `Err(i)` insert at the insertion point. -/
def add_internal (l : List (K × A)) (key : K) (value : A) :
    Option A × List (K × A) :=
  match searchKey l key with
  | Sum.inl i =>
    match l[i]? with
    | some old => (some old.2, l.set i (key, value))
    | none => (none, l)
  | Sum.inr i => (none, l.insertIdx i (key, value))

/-- `Store::remove_internal`: binary search; on `Ok(i)` remove and return the
entry at `i`, on `Err(_)` leave the list unchanged. -/
def remove_internal (l : List (K × A)) (key : K) :
    Option (K × A) × List (K × A) :=
  match searchKey l key with
  | Sum.inl i => (l[i]?, l.eraseIdx i)
  | Sum.inr _ => (none, l)

/-- The sort invariant of the single-value store: keys strictly ascending
at every pair of positions (hence no duplicate keys). -/
def keySorted (l : List (K × A)) : Prop :=
  l.Pairwise (fun p q => p.1 < q.1)

instance keySorted.instDecidable [DecidableEq A] (l : List (K × A)) :
    Decidable (keySorted l) := by
  unfold keySorted; infer_instance

end Helpers

section StoreDef

variable {K T M : Type} [LinearOrder K]

/-- `StoreEvent` from src/store.rs. -/
inductive StoreEvent (K T M : Type) where
  | Added (added : T) (metadata : M)
  | Removed (t : T)
  | ClearedAll
  | BulkAddedRemoved (added : List (K × T)) (removed : List (K × T)) (metadata : M)
  | Changed (from_to : List ((K × T) × (K × T))) (removed : List (K × T)) (metadata : M)
  deriving DecidableEq

/-- `Store` from src/store.rs: the sorted backing sequence plus the optional
event log (`None` when constructed with `hold_events == false`). -/
structure Store (K T M : Type) where
  store : List (K × T)
  events : Option (List (StoreEvent K T M))
  deriving DecidableEq

/-- `Store::new`. -/
def Store.new (holdEvents : Bool) : Store K T M :=
  ⟨[], if holdEvents then some [] else none⟩

/-- `Store::fire_event`: append an event when the log is present. -/
def Store.fireEvent (st : Store K T M) (e : StoreEvent K T M) : Store K T M :=
  { st with events := st.events.map (fun evs => evs ++ [e]) }

/-- `Store::index` / `Store::find` (both are `binary_search_by_key`). -/
def Store.find (st : Store K T M) (key : K) : Nat ⊕ Nat :=
  searchKey st.store key

/-- `Store::len`. -/
def Store.len (st : Store K T M) : Nat :=
  st.store.length

/-- `Store::add`: replace-or-insert; fires `Removed(old)` when a value was
displaced, then always fires `Added`. -/
def Store.add (st : Store K T M) (key : K) (value : T) (metadata : M) :
    Option T × Store K T M :=
  match add_internal st.store key value with
  | (some r, s) =>
    (some r, (Store.fireEvent { st with store := s } (StoreEvent.Removed r)).fireEvent
      (StoreEvent.Added value metadata))
  | (none, s) =>
    (none, Store.fireEvent { st with store := s } (StoreEvent.Added value metadata))

/-- `Store::remove`: remove if present (firing `Removed`), no-op otherwise. -/
def Store.remove (st : Store K T M) (key : K) : Option (K × T) × Store K T M :=
  match remove_internal st.store key with
  | (some e, s) =>
    (some e, Store.fireEvent { st with store := s } (StoreEvent.Removed e.2))
  | (none, s) => (none, { st with store := s })

/-- `Store::pop_first`: remove and return the lowest-keyed entry. -/
def Store.pop_first (st : Store K T M) : Option (K × T) × Store K T M :=
  match st.store with
  | [] => (none, st)
  | (k, v) :: tl =>
    (some (k, v), Store.fireEvent { st with store := tl } (StoreEvent.Removed v))

/-- `Store::clear`. -/
def Store.clear (st : Store K T M) : Store K T M :=
  Store.fireEvent { st with store := [] } StoreEvent.ClearedAll

/-- The loop of `Store::bulk_add`: insert each record in order, collecting
the values displaced by same-key replacement. -/
def bulkAddGo : List (K × T) → List (K × T) → List (K × T) × List (K × T)
  | l, [] => ([], l)
  | l, (k, v) :: rest =>
    match add_internal l k v with
    | (some r, l2) =>
      let p := bulkAddGo l2 rest
      ((k, r) :: p.1, p.2)
    | (none, l2) => bulkAddGo l2 rest

/-- `Store::bulk_add`. -/
def Store.bulk_add (st : Store K T M) (recs : List (K × T)) (metadata : M) :
    List (K × T) × Store K T M :=
  let p := bulkAddGo st.store recs
  (p.1, Store.fireEvent { st with store := p.2 }
    (StoreEvent.BulkAddedRemoved recs p.1 metadata))

/-- The loop of `Store::bulk_remove`: remove each listed key, collecting the
entries actually removed. -/
def bulkRemoveGo : List (K × T) → List K → List (K × T) × List (K × T)
  | l, [] => ([], l)
  | l, k :: rest =>
    match remove_internal l k with
    | (some r, l2) =>
      let p := bulkRemoveGo l2 rest
      (r :: p.1, p.2)
    | (none, l2) => bulkRemoveGo l2 rest

/-- `Store::bulk_remove`. -/
def Store.bulk_remove (st : Store K T M) (recs : List K) (metadata : M) :
    List (K × T) × Store K T M :=
  let p := bulkRemoveGo st.store recs
  (p.1, Store.fireEvent { st with store := p.2 }
    (StoreEvent.BulkAddedRemoved [] p.1 metadata))

/-- First loop of `Store::change`: remove every `old_key` in advance,
keeping `(removed_entry, to_pair)` for exactly the keys that were present. -/
def changeRemoveGo : List (K × T) → List (K × (K × T)) →
    List ((K × T) × (K × T)) × List (K × T)
  | l, [] => ([], l)
  | l, (k, toPair) :: rest =>
    match remove_internal l k with
    | (some removed, l2) =>
      let p := changeRemoveGo l2 rest
      ((removed, toPair) :: p.1, p.2)
    | (none, l2) => changeRemoveGo l2 rest

/-- Second loop of `Store::change`: insert the `to` side of every collected
pair, gathering entries displaced by the insertions. -/
def changeAddGo : List (K × T) → List ((K × T) × (K × T)) →
    List (K × T) × List (K × T)
  | l, [] => ([], l)
  | l, (_, (k, v)) :: rest =>
    match add_internal l k v with
    | (some r, l2) =>
      let p := changeAddGo l2 rest
      ((k, r) :: p.1, p.2)
    | (none, l2) => changeAddGo l2 rest

/-- `Store::change`: remove phase, then add phase, then one `Changed` event. -/
def Store.change (st : Store K T M) (from_to : List (K × (K × T)))
    (metadata : M) : List (K × T) × Store K T M :=
  let p1 := changeRemoveGo st.store from_to
  let p2 := changeAddGo p1.2 p1.1
  (p2.1, Store.fireEvent { st with store := p2.2 }
    (StoreEvent.Changed p1.1 p2.1 metadata))

/-- `Store::update_at_idx`: overwrite the value at a position, keeping the
key; `none` models the source's panic on an out-of-bounds index. -/
def Store.update_at_idx (st : Store K T M) (idx : Nat) (newValue : T)
    (metadata : M) : Option (Store K T M) :=
  match st.events with
  | none =>
    match st.store[idx]? with
    | none => none
    | some e => some { st with store := st.store.set idx (e.1, newValue) }
  | some evs =>
    match st.store[idx]? with
    | none => none
    | some e =>
      some { store := st.store.set idx (e.1, newValue),
             events := some (evs ++
               [StoreEvent.Changed [(e, (e.1, newValue))] [] metadata]) }

/-- `Store::replace`: upsert through a function of the current value. -/
def Store.replace (st : Store K T M) (k : K) (metadata : M)
    (f : Option T → T) : Store K T M :=
  match st.events with
  | none =>
    match searchKey st.store k with
    | Sum.inl idx =>
      match st.store[idx]? with
      | some current => { st with store := st.store.set idx (k, f (some current.2)) }
      | none => st
    | Sum.inr idx => { st with store := st.store.insertIdx idx (k, f none) }
  | some evs =>
    match searchKey st.store k with
    | Sum.inl idx =>
      match st.store[idx]? with
      | some current =>
        { store := st.store.set idx (k, f (some current.2)),
          events := some (evs ++
            [StoreEvent.Changed [(current, (k, f (some current.2)))] [] metadata]) }
      | none => st
    | Sum.inr idx =>
      { store := st.store.insertIdx idx (k, f none),
        events := some (evs ++ [StoreEvent.Added (f none) metadata]) }

/-- `Store::replace_mut`: upsert allowing in-place mutation.  The Rust
closure receives `Option<&mut T>`; we model its two effects separately:
`g` is the in-place mutation it performs when the entry is present, and
`f` is the value it returns. -/
def Store.replace_mut (st : Store K T M) (k : K) (metadata : M)
    (g : T → T) (f : Option T → Option T) : Store K T M :=
  match st.events with
  | none =>
    match searchKey st.store k with
    | Sum.inl idx =>
      match st.store[idx]? with
      | some current =>
        match f (some current.2) with
        | none => { st with store := st.store.set idx (current.1, g current.2) }
        | some newValue => { st with store := st.store.set idx (k, newValue) }
      | none => st
    | Sum.inr idx =>
      match f none with
      | none => st
      | some newValue => { st with store := st.store.insertIdx idx (k, newValue) }
  | some evs =>
    match searchKey st.store k with
    | Sum.inl idx =>
      match st.store[idx]? with
      | some current =>
        let newValue :=
          match f (some current.2) with
          | none => g current.2
          | some nv => nv
        { store := st.store.set idx (k, newValue),
          events := some (evs ++
            [StoreEvent.Changed [(current, (k, newValue))] [] metadata]) }
      | none => st
    | Sum.inr idx =>
      match f none with
      | none => st
      | some value =>
        { store := st.store.insertIdx idx (k, value),
          events := some (evs ++ [StoreEvent.Added value metadata]) }

/-- `Store::retain_values`: keep entries whose value passes the predicate,
returning the removed entries in their original order. -/
def Store.retain_values (st : Store K T M) (metadata : M) (f : T → Bool) :
    List (K × T) × Store K T M :=
  let removed := st.store.filter (fun p => ! f p.2)
  (removed, Store.fireEvent { st with store := st.store.filter (fun p => f p.2) }
    (StoreEvent.BulkAddedRemoved [] removed metadata))

/-- One end of a Rust `RangeBounds` value (`std::ops::Bound`). -/
inductive RBound (K : Type) where
  | unbounded
  | included (k : K)
  | excluded (k : K)

/-- Resolution of the start bound in `Store::range`. -/
def Store.rangeStart (st : Store K T M) (b : RBound K) : Nat :=
  match b with
  | RBound.unbounded => 0
  | RBound.excluded i =>
    match st.find i with
    | Sum.inl j => j + 1
    | Sum.inr j => j
  | RBound.included i =>
    match st.find i with
    | Sum.inl j => j
    | Sum.inr j => j

/-- Resolution of the end bound in `Store::range`. -/
def Store.rangeEnd (st : Store K T M) (b : RBound K) : Nat :=
  match b with
  | RBound.unbounded => st.store.length
  | RBound.excluded i =>
    match st.find i with
    | Sum.inl j => j
    | Sum.inr j => j
  | RBound.included i =>
    match st.find i with
    | Sum.inl j => j + 1
    | Sum.inr j => j

/-- `Store::range`: resolve both bounds, return the contiguous sub-sequence
together with its absolute start index ( `(0, [])` for an empty store or
when the resolved bounds coincide). -/
def Store.range (st : Store K T M) (sb eb : RBound K) : Nat × List (K × T) :=
  if st.store.isEmpty then (0, [])
  else
    let sp := st.rangeStart sb
    let ep := st.rangeEnd eb
    if sp = ep then (0, [])
    else (sp, (st.store.drop sp).take (ep - sp))

end StoreDef

section BagStoreDef

variable {K T M : Type} [LinearOrder K] [DecidableEq T]

/-- `BagStoreEvent` from src/bag_store.rs; the `Changes` and `BulkRemove`
trait objects are embedded as the pair lists they iterate over. -/
inductive BagStoreEvent (K T M : Type) where
  | Add (t : T)
  | AddVec (v : List T)
  | Remove (t : T)
  | RemoveVec (v : List T)
  | RemoveAll (m : List (K × List T))
  | ClearAll
  | Change (changes : List ((K × T) × (K × T)))
  | AddAll (added : List (K × List T)) (metadata : M)
  | BulkRemove (recs : List (K × T))
  deriving DecidableEq

/-- `BagStore` from src/bag_store.rs: the `BTreeMap<K, Vec<T>>` embedded as a
key-sorted association list, the optional event log, and the incrementally
maintained element counter. -/
structure BagStore (K T M : Type) where
  store : List (K × List T)
  events : Option (List (BagStoreEvent K T M))
  count : Nat
  deriving DecidableEq

/-- Replace the value sequence under a key (the effect of mutating through
`BTreeMap::get_mut`); touches only the first matching entry. -/
def setFirst : List (K × A) → K → A → List (K × A)
  | [], _, _ => []
  | (k, v) :: tl, key, nv =>
    if k = key then (key, nv) :: tl else (k, v) :: setFirst tl key nv

/-- `BTreeMap::remove`: drop the (first) entry with the given key. -/
def eraseFirst : List (K × A) → K → List (K × A)
  | [], _ => []
  | (k, v) :: tl, key => if k = key then tl else (k, v) :: eraseFirst tl key

/-- `BTreeMap::insert`: replace the value at an existing key, or insert a new
entry at its key-sorted position. -/
def mapInsert [LinearOrder K] : List (K × A) → K → A → List (K × A)
  | [], key, a => [(key, a)]
  | (k, v) :: tl, key, a =>
    if k < key then (k, v) :: mapInsert tl key a
    else if k = key then (key, a) :: tl
    else (key, a) :: (k, v) :: tl

/-- `Vec::iter().position(|i| *i == *e)` followed by `Vec::remove(idx)`:
locate the first value equal to `e` and split it out of the sequence. -/
def findRemove : List T → T → Option (T × List T)
  | [], _ => none
  | x :: tl, e =>
    if x = e then some (x, tl)
    else (findRemove tl e).map (fun p => (p.1, x :: p.2))

/-- `BagStore::new`. -/
def BagStore.new (holdEvents : Bool) : BagStore K T M :=
  ⟨[], if holdEvents then some [] else none, 0⟩

/-- `BagStore::fire_event`. -/
def BagStore.fireEvent (st : BagStore K T M) (e : BagStoreEvent K T M) :
    BagStore K T M :=
  { st with events := st.events.map (fun evs => evs ++ [e]) }

/-- `BagStore::get`: the value sequence under a key, or the empty sequence. -/
def BagStore.get (st : BagStore K T M) (key : K) : List T :=
  (lookupKey st.store key).getD []

/-- `BagStore::len`: the incrementally maintained element counter. -/
def BagStore.len (st : BagStore K T M) : Nat :=
  st.count

/-- `self.store.entry(key).or_insert(Vec::new()).push(e)` on an association
list: append to the existing sequence or insert a fresh singleton. -/
def bagPush [LinearOrder K] (l : List (K × List T)) (key : K) (e : T) :
    List (K × List T) :=
  match lookupKey l key with
  | some vec => setFirst l key (vec ++ [e])
  | none => mapInsert l key [e]

/-- `BagStore::add_internal`: push one value, bump the counter. -/
def BagStore.add_internal (st : BagStore K T M) (key : K) (e : T) :
    BagStore K T M :=
  { st with store := bagPush st.store key e, count := st.count + 1 }

/-- `BagStore::add`. -/
def BagStore.add (st : BagStore K T M) (key : K) (e : T) : BagStore K T M :=
  (st.add_internal key e).fireEvent (BagStoreEvent.Add e)

/-- `BagStore::add_vec_internal`: append a whole vector under a key (inserting
the vector as-is when the key is vacant), bump the counter by its length. -/
def BagStore.add_vec_internal (st : BagStore K T M) (key : K) (e : List T) :
    BagStore K T M :=
  { st with
    store :=
      match lookupKey st.store key with
      | some vec => setFirst st.store key (vec ++ e)
      | none => mapInsert st.store key e,
    count := st.count + e.length }

/-- `BagStore::add_vec`. -/
def BagStore.add_vec (st : BagStore K T M) (key : K) (e : List T) :
    BagStore K T M :=
  (st.add_vec_internal key e).fireEvent (BagStoreEvent.AddVec e)

/-- `BagStore::remove_internal`: remove the first value equal to `e` under
`key`; drop the key when its sequence becomes empty. -/
def BagStore.remove_internal (st : BagStore K T M) (key : K) (e : T) :
    Option T × BagStore K T M :=
  match lookupKey st.store key with
  | none => (none, st)
  | some vec =>
    match findRemove vec e with
    | none => (none, st)
    | some (r, newVec) =>
      (some r,
        { st with
          store :=
            if newVec = [] then eraseFirst st.store key
            else setFirst st.store key newVec,
          count := st.count - 1 })

/-- `BagStore::remove`: fires `Remove` only on actual removal. -/
def BagStore.remove (st : BagStore K T M) (key : K) (e : T) :
    Option T × BagStore K T M :=
  match st.remove_internal key e with
  | (some r, st2) => (some r, st2.fireEvent (BagStoreEvent.Remove e))
  | (none, st2) => (none, st2)

/-- The loop of `BagStore::remove_vec_internal`: remove each listed value
once if present, collecting the values actually removed. -/
def removeVecGo : List T → List T → List T × List T
  | cur, [] => (cur, [])
  | cur, e :: rest =>
    match findRemove cur e with
    | some (r, cur2) =>
      let p := removeVecGo cur2 rest
      (p.1, r :: p.2)
    | none => removeVecGo cur rest

/-- `BagStore::remove_vec_internal`.  Note: the surviving (possibly empty)
sequence is written back under the key; the key is never dropped here. -/
def BagStore.remove_vec_internal (st : BagStore K T M) (key : K)
    (valueTable : List T) : List T × BagStore K T M :=
  match lookupKey st.store key with
  | none => ([], st)
  | some cur =>
    let p := removeVecGo cur valueTable
    (p.2,
      { st with store := setFirst st.store key p.1,
                count := st.count - p.2.length })

/-- `BagStore::remove_vec`: always fires `RemoveVec` with what was removed. -/
def BagStore.remove_vec (st : BagStore K T M) (key : K)
    (valueTable : List T) : BagStore K T M :=
  let p := st.remove_vec_internal key valueTable
  p.2.fireEvent (BagStoreEvent.RemoveVec p.1)

/-- The loop of `BagStore::remove_all`: run `remove_vec_internal` for every
entry of the argument map, building the removed-values map for the event. -/
def removeAllGo [LinearOrder K] : BagStore K T M → List (K × List T) →
    List (K × List T) → List (K × List T) × BagStore K T M
  | st, acc, [] => (acc, st)
  | st, acc, (key, vec) :: rest =>
    let p := st.remove_vec_internal key vec
    removeAllGo p.2 (mapInsert acc key p.1) rest

/-- `BagStore::remove_all`. -/
def BagStore.remove_all (st : BagStore K T M) (m : List (K × List T)) :
    BagStore K T M :=
  let p := removeAllGo st [] m
  p.2.fireEvent (BagStoreEvent.RemoveAll p.1)

/-- `BagStore::pop_first`: remove and return the whole lowest-keyed bag. -/
def BagStore.pop_first (st : BagStore K T M) :
    Option (K × List T) × BagStore K T M :=
  match st.store with
  | [] => (none, st)
  | (k, v) :: tl =>
    (some (k, v),
      BagStore.fireEvent { st with store := tl, count := st.count - v.length }
        (BagStoreEvent.RemoveVec v))

/-- `BagStore::clear`. -/
def BagStore.clear (st : BagStore K T M) : BagStore K T M :=
  BagStore.fireEvent { st with store := [], count := 0 } BagStoreEvent.ClearAll

/-- The loop of `BagStore::change`: for each pair, remove the `from`
key/value pair and then immediately insert the `to` key/value pair. -/
def changeGo : BagStore K T M → List ((K × T) × (K × T)) → BagStore K T M
  | st, [] => st
  | st, (f, t) :: rest =>
    changeGo (((st.remove_internal f.1 f.2).2).add_internal t.1 t.2) rest

/-- `BagStore::change`: pair-by-pair remove/insert, then one `Change` event. -/
def BagStore.change (st : BagStore K T M)
    (changes : List ((K × T) × (K × T))) : BagStore K T M :=
  (changeGo st changes).fireEvent (BagStoreEvent.Change changes)

/-- The grouping loop of `BagStore::bulk_add`:
`map.entry(k).or_insert(Vec::new()).push(v)` over the batch in order. -/
def groupGo [LinearOrder K] : List (K × List T) → List (K × T) →
    List (K × List T)
  | m, [] => m
  | m, (k, v) :: rest => groupGo (bagPush m k v) rest

/-- The loop of `BagStore::add_all`. -/
def addAllGo : BagStore K T M → List (K × List T) → BagStore K T M
  | st, [] => st
  | st, (key, value) :: rest => addAllGo (st.add_vec_internal key value) rest

/-- `BagStore::add_all`. -/
def BagStore.add_all (st : BagStore K T M) (m : List (K × List T))
    (metadata : M) : BagStore K T M :=
  (addAllGo st m).fireEvent (BagStoreEvent.AddAll m metadata)

/-- `BagStore::bulk_add`: group the batch by key, then `add_all`. -/
def BagStore.bulk_add (st : BagStore K T M) (models : List (K × T))
    (metadata : M) : BagStore K T M :=
  st.add_all (groupGo [] models) metadata

/-- The loop of `BagStore::bulk_remove`. -/
def bulkRemoveBagGo : BagStore K T M → List (K × T) → BagStore K T M
  | st, [] => st
  | st, (k, v) :: rest => bulkRemoveBagGo (st.remove_internal k v).2 rest

/-- `BagStore::bulk_remove`. -/
def BagStore.bulk_remove (st : BagStore K T M) (recs : List (K × T)) :
    BagStore K T M :=
  (bulkRemoveBagGo st recs).fireEvent (BagStoreEvent.BulkRemove recs)

/-- The Bag Store invariant of the spec: no key maps to an empty sequence. -/
def noEmptyBags (l : List (K × List T)) : Prop :=
  ∀ p ∈ l, p.2 ≠ []

instance noEmptyBags.instDecidable (l : List (K × List T)) :
    Decidable (noEmptyBags l) := by
  unfold noEmptyBags; infer_instance

/-- The total number of values held, recomputed by traversal (the quantity
the incrementally maintained counter must track). -/
def bagCount (l : List (K × List T)) : Nat :=
  (l.map (fun p => p.2.length)).sum

end BagStoreDef

section StoreLemmas

variable {K : Type} {A : Type} [LinearOrder K]

theorem add_internal_nil (key : K) (v : A) :
    add_internal ([] : List (K × A)) key v = (none, [(key, v)]) := rfl

theorem add_internal_cons_lt {k : K} {a : A} {tl : List (K × A)} {key : K}
    {v : A} (h : k < key) :
    add_internal ((k, a) :: tl) key v =
      ((add_internal tl key v).1, (k, a) :: (add_internal tl key v).2) := by
  cases hs : searchKey tl key with
  | inl i =>
    cases ht : tl[i]? with
    | some old => simp [add_internal, searchKey, if_pos h, hs, ht]
    | none => simp [add_internal, searchKey, if_pos h, hs, ht]
  | inr i => simp [add_internal, searchKey, if_pos h, hs]

theorem add_internal_cons_eq {k : K} {a : A} {tl : List (K × A)} {key : K}
    {v : A} (h : ¬ k < key) (he : k = key) :
    add_internal ((k, a) :: tl) key v = (some a, (key, v) :: tl) := by
  simp [add_internal, searchKey, if_neg h, if_pos he]

theorem add_internal_cons_gt {k : K} {a : A} {tl : List (K × A)} {key : K}
    {v : A} (h : ¬ k < key) (he : k ≠ key) :
    add_internal ((k, a) :: tl) key v = (none, (key, v) :: (k, a) :: tl) := by
  simp [add_internal, searchKey, if_neg h, if_neg he, List.insertIdx_zero]

theorem remove_internal_nil (key : K) :
    remove_internal ([] : List (K × A)) key = (none, []) := rfl

theorem remove_internal_cons_lt {k : K} {a : A} {tl : List (K × A)} {key : K}
    (h : k < key) :
    remove_internal ((k, a) :: tl) key =
      ((remove_internal tl key).1, (k, a) :: (remove_internal tl key).2) := by
  cases hs : searchKey tl key with
  | inl i => simp [remove_internal, searchKey, if_pos h, hs]
  | inr i => simp [remove_internal, searchKey, if_pos h, hs]

theorem remove_internal_cons_eq {k : K} {a : A} {tl : List (K × A)} {key : K}
    (h : ¬ k < key) (he : k = key) :
    remove_internal ((k, a) :: tl) key = (some (k, a), tl) := by
  simp [remove_internal, searchKey, if_neg h, if_pos he]

theorem remove_internal_cons_gt {k : K} {a : A} {tl : List (K × A)} {key : K}
    (h : ¬ k < key) (he : k ≠ key) :
    remove_internal ((k, a) :: tl) key = (none, (k, a) :: tl) := by
  simp [remove_internal, searchKey, if_neg h, if_neg he]

theorem mem_add_internal {l : List (K × A)} {key : K} {v : A} {p : K × A}
    (hp : p ∈ (add_internal l key v).2) : p ∈ l ∨ p = (key, v) := by
  induction l with
  | nil => simp [add_internal_nil] at hp; simp [hp]
  | cons hd tl ih =>
    obtain ⟨k, a⟩ := hd
    rcases lt_trichotomy k key with h | h | h
    · rw [add_internal_cons_lt h] at hp
      rcases List.mem_cons.mp hp with h1 | h1
      · exact Or.inl (by simp [h1])
      · rcases ih h1 with h2 | h2
        · exact Or.inl (List.mem_cons_of_mem _ h2)
        · exact Or.inr h2
    · rw [add_internal_cons_eq (by simp [h]) h] at hp
      rcases List.mem_cons.mp hp with h1 | h1
      · exact Or.inr h1
      · exact Or.inl (List.mem_cons_of_mem _ h1)
    · rw [add_internal_cons_gt (not_lt_of_gt h) (ne_of_gt h)] at hp
      rcases List.mem_cons.mp hp with h1 | h1
      · exact Or.inr h1
      · exact Or.inl h1

theorem keySorted_add_internal {l : List (K × A)} {key : K} {v : A}
    (h : keySorted l) : keySorted (add_internal l key v).2 := by
  induction l with
  | nil => simp [add_internal_nil, keySorted]
  | cons hd tl ih =>
    obtain ⟨k, a⟩ := hd
    rw [keySorted, List.pairwise_cons] at h
    obtain ⟨hhead, htl⟩ := h
    rcases lt_trichotomy k key with hk | hk | hk
    · rw [keySorted, add_internal_cons_lt hk, List.pairwise_cons]
      refine ⟨fun q hq => ?_, ih htl⟩
      rcases mem_add_internal hq with h1 | h1
      · exact hhead q h1
      · simp [h1, hk]
    · subst hk
      rw [add_internal_cons_eq (lt_irrefl k) rfl, keySorted, List.pairwise_cons]
      exact ⟨fun q hq => hhead q hq, htl⟩
    · rw [add_internal_cons_gt (not_lt_of_gt hk) (ne_of_gt hk), keySorted,
        List.pairwise_cons]
      constructor
      · intro q hq
        rcases List.mem_cons.mp hq with h1 | h1
        · simp [h1, hk]
        · exact lt_trans hk (hhead q h1)
      · rw [List.pairwise_cons]
        exact ⟨fun q hq => hhead q hq, htl⟩

theorem mem_remove_internal {l : List (K × A)} {key : K} {p : K × A}
    (hp : p ∈ (remove_internal l key).2) : p ∈ l := by
  induction l with
  | nil => simp [remove_internal_nil] at hp
  | cons hd tl ih =>
    obtain ⟨k, a⟩ := hd
    rcases lt_trichotomy k key with h | h | h
    · rw [remove_internal_cons_lt h] at hp
      rcases List.mem_cons.mp hp with h1 | h1
      · simp [h1]
      · exact List.mem_cons_of_mem _ (ih h1)
    · rw [remove_internal_cons_eq (by simp [h]) h] at hp
      exact List.mem_cons_of_mem _ hp
    · rw [remove_internal_cons_gt (not_lt_of_gt h) (ne_of_gt h)] at hp
      exact hp

theorem keySorted_remove_internal {l : List (K × A)} {key : K}
    (h : keySorted l) : keySorted (remove_internal l key).2 := by
  induction l with
  | nil => simpa [remove_internal_nil] using h
  | cons hd tl ih =>
    obtain ⟨k, a⟩ := hd
    rw [keySorted, List.pairwise_cons] at h
    obtain ⟨hhead, htl⟩ := h
    rcases lt_trichotomy k key with hk | hk | hk
    · rw [keySorted, remove_internal_cons_lt hk, List.pairwise_cons]
      exact ⟨fun q hq => hhead q (mem_remove_internal hq), ih htl⟩
    · rw [remove_internal_cons_eq (by simp [hk]) hk]
      exact htl
    · rw [remove_internal_cons_gt (not_lt_of_gt hk) (ne_of_gt hk), keySorted,
        List.pairwise_cons]
      exact ⟨hhead, htl⟩

theorem lookupKey_mem {l : List (K × A)} {x : K} {v : A}
    (h : lookupKey l x = some v) : (x, v) ∈ l := by
  induction l with
  | nil => simp [lookupKey] at h
  | cons hd tl ih =>
    obtain ⟨k, a⟩ := hd
    by_cases hk : k = x
    · rw [lookupKey, if_pos hk] at h
      obtain rfl : a = v := by injection h
      simp [hk]
    · rw [lookupKey, if_neg hk] at h
      exact List.mem_cons_of_mem _ (ih h)

theorem lookupKey_eq_none_iff {l : List (K × A)} {x : K} :
    lookupKey l x = none ↔ ∀ p ∈ l, p.1 ≠ x := by
  induction l with
  | nil => simp [lookupKey]
  | cons hd tl ih =>
    obtain ⟨k, a⟩ := hd
    by_cases hk : k = x
    · simp [lookupKey, if_pos hk, hk]
    · simp [lookupKey, if_neg hk, ih, hk]

theorem lookupKey_add_internal {l : List (K × A)} {key : K} {v : A} (x : K) :
    lookupKey (add_internal l key v).2 x =
      if x = key then some v else lookupKey l x := by
  induction l with
  | nil =>
    by_cases hx : x = key
    · simp [add_internal_nil, lookupKey, hx]
    · simp [add_internal_nil, lookupKey, hx, Ne.symm hx]
  | cons hd tl ih =>
    obtain ⟨k, a⟩ := hd
    rcases lt_trichotomy k key with hk | hk | hk
    · rw [add_internal_cons_lt hk]
      by_cases hkx : k = x
      · have hxkey : x ≠ key := by rw [← hkx]; exact ne_of_lt hk
        simp [lookupKey, if_pos hkx, hxkey]
      · simp [lookupKey, if_neg hkx, ih]
    · subst hk
      by_cases hx : x = k
      · simp [add_internal_cons_eq (lt_irrefl k) rfl, lookupKey, hx]
      · simp [add_internal_cons_eq (lt_irrefl k) rfl, lookupKey, hx, Ne.symm hx]
    · rw [add_internal_cons_gt (not_lt_of_gt hk) (ne_of_gt hk)]
      by_cases hx : x = key
      · simp [lookupKey, hx]
      · simp [lookupKey, hx, Ne.symm hx]

end StoreLemmas

section StoreLemmas2

variable {K : Type} {A : Type} [LinearOrder K]

theorem lookupKey_eq_none_of_forall_lt {l : List (K × A)} {x : K}
    (h : ∀ p ∈ l, x < p.1) : lookupKey l x = none :=
  lookupKey_eq_none_iff.mpr (fun p hp => Ne.symm (ne_of_lt (h p hp)))

theorem add_internal_fst {l : List (K × A)} {key : K} {v : A}
    (h : keySorted l) : (add_internal l key v).1 = lookupKey l key := by
  induction l with
  | nil => simp [add_internal_nil, lookupKey]
  | cons hd tl ih =>
    obtain ⟨k, a⟩ := hd
    rw [keySorted, List.pairwise_cons] at h
    obtain ⟨hhead, htl⟩ := h
    rcases lt_trichotomy k key with hk | hk | hk
    · rw [add_internal_cons_lt hk, ih htl, lookupKey, if_neg (ne_of_lt hk)]
    · rw [add_internal_cons_eq (by simp [hk]) hk, lookupKey, if_pos hk]
    · rw [add_internal_cons_gt (not_lt_of_gt hk) (ne_of_gt hk), lookupKey,
        if_neg (ne_of_gt hk)]
      exact (lookupKey_eq_none_of_forall_lt
        (fun p hp => lt_trans hk (hhead p hp))).symm

theorem remove_internal_fst {l : List (K × A)} {key : K}
    (h : keySorted l) :
    (remove_internal l key).1 = (lookupKey l key).map (fun v => (key, v)) := by
  induction l with
  | nil => simp [remove_internal_nil, lookupKey]
  | cons hd tl ih =>
    obtain ⟨k, a⟩ := hd
    rw [keySorted, List.pairwise_cons] at h
    obtain ⟨hhead, htl⟩ := h
    rcases lt_trichotomy k key with hk | hk | hk
    · rw [remove_internal_cons_lt hk, ih htl, lookupKey, if_neg (ne_of_lt hk)]
    · subst hk
      rw [remove_internal_cons_eq (lt_irrefl k) rfl, lookupKey, if_pos rfl]
      rfl
    · rw [remove_internal_cons_gt (not_lt_of_gt hk) (ne_of_gt hk), lookupKey,
        if_neg (ne_of_gt hk)]
      rw [lookupKey_eq_none_of_forall_lt (fun p hp => lt_trans hk (hhead p hp))]
      rfl

theorem lookupKey_remove_internal {l : List (K × A)} {key : K}
    (h : keySorted l) (x : K) :
    lookupKey (remove_internal l key).2 x =
      if x = key then none else lookupKey l x := by
  induction l with
  | nil =>
    by_cases hx : x = key <;> simp [remove_internal_nil, lookupKey, hx]
  | cons hd tl ih =>
    obtain ⟨k, a⟩ := hd
    rw [keySorted, List.pairwise_cons] at h
    obtain ⟨hhead, htl⟩ := h
    rcases lt_trichotomy k key with hk | hk | hk
    · rw [remove_internal_cons_lt hk]
      by_cases hkx : k = x
      · have hxkey : x ≠ key := by rw [← hkx]; exact ne_of_lt hk
        simp [lookupKey, if_pos hkx, hxkey]
      · simp [lookupKey, if_neg hkx, ih htl]
    · subst hk
      rw [remove_internal_cons_eq (lt_irrefl k) rfl]
      by_cases hx : x = k
      · subst hx
        simp [lookupKey_eq_none_of_forall_lt hhead]
      · simp [lookupKey, hx, Ne.symm hx]
    · rw [remove_internal_cons_gt (not_lt_of_gt hk) (ne_of_gt hk)]
      by_cases hx : x = key
      · subst hx
        have : lookupKey ((k, a) :: tl) x = none := by
          apply lookupKey_eq_none_of_forall_lt
          intro p hp
          rcases List.mem_cons.mp hp with h1 | h1
          · simp [h1, hk]
          · exact lt_trans hk (hhead p h1)
        simp [this]
      · simp [hx]

theorem searchKey_inl_key {l : List (K × A)} {key : K} {i : Nat}
    (h : searchKey l key = Sum.inl i) : ∃ a, l[i]? = some (key, a) := by
  induction l generalizing i with
  | nil => simp [searchKey] at h
  | cons hd tl ih =>
    obtain ⟨k, a⟩ := hd
    by_cases hk : k < key
    · cases hs : searchKey tl key with
      | inl j =>
        rw [searchKey, if_pos hk, hs] at h
        obtain rfl : j + 1 = i := by injection h
        simpa using ih hs
      | inr j => rw [searchKey, if_pos hk, hs] at h; cases h
    · by_cases he : k = key
      · rw [searchKey, if_neg hk, if_pos he] at h
        obtain rfl : 0 = i := by injection h
        exact ⟨a, by simp [he]⟩
      · rw [searchKey, if_neg hk, if_neg he] at h; cases h

theorem searchKey_inl_of_lookup_none {l : List (K × A)} {key : K} {i : Nat}
    (hn : lookupKey l key = none) (h : searchKey l key = Sum.inl i) : False := by
  obtain ⟨a, ha⟩ := searchKey_inl_key h
  exact lookupKey_eq_none_iff.mp hn (key, a) (List.getElem?_mem ha) rfl

theorem remove_internal_of_lookup_none {l : List (K × A)} {key : K}
    (hn : lookupKey l key = none) : remove_internal l key = (none, l) := by
  cases hs : searchKey l key with
  | inl i => exact absurd hs (fun hs => searchKey_inl_of_lookup_none hn hs)
  | inr i => simp [remove_internal, hs]

theorem searchKey_inr_le {l : List (K × A)} {key : K} {i : Nat}
    (h : searchKey l key = Sum.inr i) : i ≤ l.length := by
  induction l generalizing i with
  | nil => rw [searchKey] at h; injection h with h; omega
  | cons hd tl ih =>
    obtain ⟨k, a⟩ := hd
    by_cases hk : k < key
    · cases hs : searchKey tl key with
      | inl j => rw [searchKey, if_pos hk, hs] at h; cases h
      | inr j =>
        rw [searchKey, if_pos hk, hs] at h
        injection h with h
        have := ih hs
        simp; omega
    · by_cases he : k = key
      · rw [searchKey, if_neg hk, if_pos he] at h; cases h
      · rw [searchKey, if_neg hk, if_neg he] at h
        injection h with h; simp; omega

theorem searchKey_inl_lt {l : List (K × A)} {key : K} {i : Nat}
    (h : searchKey l key = Sum.inl i) : i < l.length := by
  obtain ⟨a, ha⟩ := searchKey_inl_key h
  exact (List.getElem?_eq_some.mp ha).1

theorem length_add_internal {l : List (K × A)} {key : K} {v : A} :
    (add_internal l key v).2.length =
      if (add_internal l key v).1.isNone then l.length + 1 else l.length := by
  cases hs : searchKey l key with
  | inl i =>
    obtain ⟨a, ha⟩ := searchKey_inl_key hs
    simp [add_internal, hs, ha]
  | inr i =>
    simp [add_internal, hs, List.length_insertIdx _ _ (searchKey_inr_le hs)]

end StoreLemmas2

section StoreLemmas3

variable {K : Type} {A : Type} [LinearOrder K]

theorem lookupKey_head {k : K} {a : A} {tl : List (K × A)} :
    lookupKey ((k, a) :: tl) k = some a := by
  simp [lookupKey]

theorem lookupKey_tail_of_sorted {k : K} {a : A} {tl : List (K × A)}
    (h : keySorted ((k, a) :: tl)) : lookupKey tl k = none := by
  rw [keySorted, List.pairwise_cons] at h
  exact lookupKey_eq_none_of_forall_lt (fun p hp => h.1 p hp)

theorem keySorted_ext {l1 l2 : List (K × A)} (h1 : keySorted l1)
    (h2 : keySorted l2) (h : ∀ x, lookupKey l1 x = lookupKey l2 x) :
    l1 = l2 := by
  induction l1 generalizing l2 with
  | nil =>
    cases l2 with
    | nil => rfl
    | cons hd t2 =>
      obtain ⟨k, v⟩ := hd
      have := h k
      rw [lookupKey, lookupKey_head] at this
      cases this
  | cons hd t1 ih =>
    obtain ⟨k1, v1⟩ := hd
    cases l2 with
    | nil =>
      have := h k1
      rw [lookupKey_head, lookupKey] at this
      cases this
    | cons hd2 t2 =>
      obtain ⟨k2, v2⟩ := hd2
      have e1 : lookupKey ((k2, v2) :: t2) k1 = some v1 := by
        rw [← h k1, lookupKey_head]
      have e2 : lookupKey ((k1, v1) :: t1) k2 = some v2 := by
        rw [h k2, lookupKey_head]
      have hkk : k1 = k2 := by
        by_contra hne
        have m1 : (k1, v1) ∈ t2 := by
          rw [lookupKey, if_neg (Ne.symm hne)] at e1
          exact lookupKey_mem e1
        have m2 : (k2, v2) ∈ t1 := by
          rw [lookupKey, if_neg hne] at e2
          exact lookupKey_mem e2
        rw [keySorted, List.pairwise_cons] at h1 h2
        exact absurd (h2.1 _ m1) (not_lt_of_gt (h1.1 _ m2))
      subst hkk
      have hv : v1 = v2 := by
        rw [lookupKey_head] at e2
        injection e2
      subst hv
      have htl : t1 = t2 := by
        apply ih (List.Pairwise.of_cons h1) (List.Pairwise.of_cons h2)
        intro x
        by_cases hx : x = k1
        · subst hx
          rw [lookupKey_tail_of_sorted h1, lookupKey_tail_of_sorted h2]
        · have := h x
          rwa [lookupKey, if_neg (fun he => hx he.symm), lookupKey,
            if_neg (fun he => hx he.symm)] at this
      rw [htl]

theorem filter_key_eq_nil {l : List (K × A)} {key : K}
    (h : ∀ p ∈ l, p.1 ≠ key) :
    l.filter (fun p => decide (p.1 = key)) = [] := by
  induction l with
  | nil => rfl
  | cons hd tl ih =>
    have hne : ¬ hd.1 = key := h hd (List.mem_cons_self _ _)
    rw [List.filter_cons]
    simp only [hne, decide_eq_true_eq, if_neg]
    exact ih (fun p hp => h p (List.mem_cons_of_mem _ hp))

theorem filter_key_eq_one {l : List (K × A)} {key : K} {v : A}
    (h : keySorted l) (hl : lookupKey l key = some v) :
    (l.filter (fun p => decide (p.1 = key))).length = 1 := by
  induction l with
  | nil => simp [lookupKey] at hl
  | cons hd tl ih =>
    obtain ⟨k, a⟩ := hd
    rw [keySorted, List.pairwise_cons] at h
    by_cases hk : k = key
    · subst hk
      have hnil : tl.filter (fun p => decide (p.1 = k)) = [] :=
        filter_key_eq_nil (fun p hp => Ne.symm (ne_of_lt (h.1 p hp)))
      rw [List.filter_cons]
      simp [hnil]
    · rw [lookupKey, if_neg hk] at hl
      rw [List.filter_cons]
      simp only [hk, decide_eq_true_eq, if_neg]
      exact ih h.2 hl

theorem searchKey_of_getElem {l : List (K × A)} {i : Nat} {e : K × A}
    (h : keySorted l) (he : l[i]? = some e) :
    searchKey l e.1 = Sum.inl i := by
  induction l generalizing i with
  | nil => simp at he
  | cons hd tl ih =>
    obtain ⟨k, a⟩ := hd
    rw [keySorted, List.pairwise_cons] at h
    cases i with
    | zero =>
      rw [List.getElem?_cons_zero] at he
      obtain rfl : (k, a) = e := by injection he
      simp [searchKey]
    | succ j =>
      rw [List.getElem?_cons_succ] at he
      have hmem : e ∈ tl := List.getElem?_mem he
      have hlt : k < e.1 := h.1 e hmem
      rw [searchKey, if_pos hlt, ih h.2 he]

theorem set_eq_add_internal_snd {l : List (K × A)} {key : K} {i : Nat}
    {cur : K × A} {v : A} (h : searchKey l key = Sum.inl i)
    (hc : l[i]? = some cur) :
    l.set i (key, v) = (add_internal l key v).2 := by
  simp [add_internal, h, hc]

theorem insertIdx_eq_add_internal_snd {l : List (K × A)} {key : K} {i : Nat}
    {v : A} (h : searchKey l key = Sum.inr i) :
    l.insertIdx i (key, v) = (add_internal l key v).2 := by
  simp [add_internal, h]

theorem lookupKey_append (l1 l2 : List (K × A)) (x : K) :
    lookupKey (l1 ++ l2) x = firstSome (lookupKey l1 x) (lookupKey l2 x) := by
  induction l1 with
  | nil => simp [lookupKey, firstSome]
  | cons hd tl ih =>
    obtain ⟨k, a⟩ := hd
    by_cases hk : k = x
    · simp [lookupKey, if_pos hk, firstSome]
    · simp [lookupKey, if_neg hk, ih]

theorem firstSome_assoc (a b c : Option A) :
    firstSome (firstSome a b) c = firstSome a (firstSome b c) := by
  cases a <;> simp [firstSome]

end StoreLemmas3

section BulkLemmas

variable {K T M : Type} [LinearOrder K]

theorem bulkAddGo_snd_cons (l : List (K × T)) (k : K) (v : T)
    (rest : List (K × T)) :
    (bulkAddGo l ((k, v) :: rest)).2 =
      (bulkAddGo (add_internal l k v).2 rest).2 := by
  cases h : add_internal l k v with
  | mk fst snd => cases fst <;> simp [bulkAddGo, h]

theorem keySorted_bulkAddGo {l : List (K × T)} {es : List (K × T)}
    (h : keySorted l) : keySorted (bulkAddGo l es).2 := by
  induction es generalizing l with
  | nil => simpa [bulkAddGo] using h
  | cons e rest ih =>
    obtain ⟨k, v⟩ := e
    rw [bulkAddGo_snd_cons]
    exact ih (keySorted_add_internal h)

theorem lookupKey_bulkAddGo {l : List (K × T)} {es : List (K × T)}
    (h : keySorted l) (x : K) :
    lookupKey (bulkAddGo l es).2 x =
      firstSome (lookupKey es.reverse x) (lookupKey l x) := by
  induction es generalizing l with
  | nil => simp [bulkAddGo, lookupKey, firstSome]
  | cons e rest ih =>
    obtain ⟨k, v⟩ := e
    rw [bulkAddGo_snd_cons, ih (keySorted_add_internal h)]
    rw [List.reverse_cons, lookupKey_append, firstSome_assoc]
    congr 1
    rw [lookupKey_add_internal]
    by_cases hx : x = k
    · simp [lookupKey, hx, firstSome]
    · simp [lookupKey, hx, Ne.symm hx, firstSome]

theorem bulkRemoveGo_snd_cons (l : List (K × T)) (k : K) (rest : List K) :
    (bulkRemoveGo l (k :: rest)).2 =
      (bulkRemoveGo (remove_internal l k).2 rest).2 := by
  cases h : remove_internal l k with
  | mk fst snd => cases fst <;> simp [bulkRemoveGo, h]

theorem keySorted_bulkRemoveGo {l : List (K × T)} {ks : List K}
    (h : keySorted l) : keySorted (bulkRemoveGo l ks).2 := by
  induction ks generalizing l with
  | nil => simpa [bulkRemoveGo] using h
  | cons k rest ih =>
    rw [bulkRemoveGo_snd_cons]
    exact ih (keySorted_remove_internal h)

theorem lookupKey_bulkRemoveGo {l : List (K × T)} {ks : List K}
    (h : keySorted l) (x : K) :
    lookupKey (bulkRemoveGo l ks).2 x =
      if x ∈ ks then none else lookupKey l x := by
  induction ks generalizing l with
  | nil => simp [bulkRemoveGo]
  | cons k rest ih =>
    rw [bulkRemoveGo_snd_cons, ih (keySorted_remove_internal h)]
    by_cases hr : x ∈ rest
    · simp [hr]
    · rw [if_neg hr, lookupKey_remove_internal h]
      by_cases hx : x = k
      · simp [hx]
      · simp [hx, hr]

theorem changeRemoveGo_snd_cons (l : List (K × T)) (k : K) (t : K × T)
    (rest : List (K × (K × T))) :
    (changeRemoveGo l ((k, t) :: rest)).2 =
      (changeRemoveGo (remove_internal l k).2 rest).2 := by
  cases h : remove_internal l k with
  | mk fst snd => cases fst <;> simp [changeRemoveGo, h]

theorem keySorted_changeRemoveGo {l : List (K × T)}
    {ft : List (K × (K × T))} (h : keySorted l) :
    keySorted (changeRemoveGo l ft).2 := by
  induction ft generalizing l with
  | nil => simpa [changeRemoveGo] using h
  | cons e rest ih =>
    obtain ⟨k, t⟩ := e
    rw [changeRemoveGo_snd_cons]
    exact ih (keySorted_remove_internal h)

theorem changeAddGo_snd_cons (l : List (K × T)) (r : K × T) (k : K) (v : T)
    (rest : List ((K × T) × (K × T))) :
    (changeAddGo l ((r, (k, v)) :: rest)).2 =
      (changeAddGo (add_internal l k v).2 rest).2 := by
  cases h : add_internal l k v with
  | mk fst snd => cases fst <;> simp [changeAddGo, h]

theorem keySorted_changeAddGo {l : List (K × T)}
    {res : List ((K × T) × (K × T))} (h : keySorted l) :
    keySorted (changeAddGo l res).2 := by
  induction res generalizing l with
  | nil => simpa [changeAddGo] using h
  | cons e rest ih =>
    obtain ⟨r, k, v⟩ := e
    rw [changeAddGo_snd_cons]
    exact ih (keySorted_add_internal h)

theorem changeRemoveGo_absent {l : List (K × T)} {ft : List (K × (K × T))}
    (h : ∀ p ∈ ft, lookupKey l p.1 = none) :
    changeRemoveGo l ft = ([], l) := by
  induction ft with
  | nil => rfl
  | cons e rest ih =>
    obtain ⟨k, t⟩ := e
    have hk : lookupKey l k = none := h (k, t) (List.mem_cons_self _ _)
    rw [changeRemoveGo, remove_internal_of_lookup_none hk]
    exact ih (fun p hp => h p (List.mem_cons_of_mem _ hp))

theorem changeRemoveGo_single {l : List (K × T)} {k : K} {t : K × T}
    {r : K × T} {l2 : List (K × T)} (h : remove_internal l k = (some r, l2)) :
    changeRemoveGo l [(k, t)] = ([(r, t)], l2) := by
  simp [changeRemoveGo, h]

theorem changeAddGo_single_snd (l : List (K × T)) (r : K × T) (k : K) (v : T) :
    (changeAddGo l [(r, (k, v))]).2 = (add_internal l k v).2 := by
  rw [changeAddGo_snd_cons]
  rfl

theorem changeAddGo_single_fst_some {l : List (K × T)} {k : K} {v x : T}
    (r : K × T) (h : (add_internal l k v).1 = some x) :
    (changeAddGo l [(r, (k, v))]).1 = [(k, x)] := by
  cases heq : add_internal l k v with
  | mk fst snd =>
    rw [heq] at h
    subst h
    simp [changeAddGo, heq]

theorem changeAddGo_single_fst_none {l : List (K × T)} {k : K} {v : T}
    (r : K × T) (h : (add_internal l k v).1 = none) :
    (changeAddGo l [(r, (k, v))]).1 = [] := by
  cases heq : add_internal l k v with
  | mk fst snd =>
    rw [heq] at h
    subst h
    simp [changeAddGo, heq]

end BulkLemmas

section BagLemmas

variable {K T M : Type} [LinearOrder K] [DecidableEq T]

theorem findRemove_none_of_not_mem {vec : List T} {e : T} (h : e ∉ vec) :
    findRemove vec e = none := by
  induction vec with
  | nil => rfl
  | cons x tl ih =>
    have hx : ¬ x = e := fun he => h (by simp [he])
    rw [findRemove, if_neg hx, ih (fun hm => h (List.mem_cons_of_mem _ hm))]
    rfl

theorem findRemove_some_length {vec : List T} {e r : T} {nv : List T}
    (h : findRemove vec e = some (r, nv)) : nv.length + 1 = vec.length := by
  induction vec generalizing r nv with
  | nil => simp [findRemove] at h
  | cons x tl ih =>
    by_cases hx : x = e
    · rw [findRemove, if_pos hx] at h
      obtain ⟨rfl, rfl⟩ : x = r ∧ tl = nv := by
        constructor <;> injection h with h <;> simp_all
      simp
    · rw [findRemove, if_neg hx] at h
      cases hf : findRemove tl e with
      | none => rw [hf] at h; simp [Option.map] at h
      | some p =>
        obtain ⟨r2, nv2⟩ := p
        rw [hf] at h
        simp [Option.map] at h
        obtain ⟨h1, h2⟩ := h
        subst h1
        rw [← h2]
        simp [← ih hf]

theorem removeVecGo_length (cur vt : List T) :
    (removeVecGo cur vt).1.length + (removeVecGo cur vt).2.length =
      cur.length := by
  induction vt generalizing cur with
  | nil => simp [removeVecGo]
  | cons e rest ih =>
    cases hf : findRemove cur e with
    | none => rw [removeVecGo, hf]; exact ih cur
    | some p =>
      obtain ⟨r, cur2⟩ := p
      rw [removeVecGo, hf]
      simp only [List.length_cons]
      have h1 := findRemove_some_length hf
      have h2 := ih cur2
      omega

theorem lookupKey_some_length_le {l : List (K × List T)} {key : K}
    {vec : List T} (h : lookupKey l key = some vec) :
    vec.length ≤ bagCount l := by
  induction l with
  | nil => simp [lookupKey] at h
  | cons hd tl ih =>
    obtain ⟨k, v⟩ := hd
    by_cases hk : k = key
    · rw [lookupKey, if_pos hk] at h
      obtain rfl : v = vec := by injection h
      simp [bagCount]
    · rw [lookupKey, if_neg hk] at h
      have := ih h
      simp [bagCount] at this ⊢
      omega

theorem bagCount_setFirst {l : List (K × List T)} {key : K} {vec : List T}
    (nv : List T) (h : lookupKey l key = some vec) :
    bagCount (setFirst l key nv) + vec.length = bagCount l + nv.length := by
  induction l with
  | nil => simp [lookupKey] at h
  | cons hd tl ih =>
    obtain ⟨k, v⟩ := hd
    by_cases hk : k = key
    · rw [lookupKey, if_pos hk] at h
      obtain rfl : v = vec := by injection h
      rw [setFirst, if_pos hk]
      simp [bagCount]
      omega
    · rw [lookupKey, if_neg hk] at h
      rw [setFirst, if_neg hk]
      have := ih h
      simp [bagCount] at this ⊢
      omega

theorem bagCount_eraseFirst {l : List (K × List T)} {key : K} {vec : List T}
    (h : lookupKey l key = some vec) :
    bagCount (eraseFirst l key) + vec.length = bagCount l := by
  induction l with
  | nil => simp [lookupKey] at h
  | cons hd tl ih =>
    obtain ⟨k, v⟩ := hd
    by_cases hk : k = key
    · rw [lookupKey, if_pos hk] at h
      obtain rfl : v = vec := by injection h
      rw [eraseFirst, if_pos hk]
      simp [bagCount]
      omega
    · rw [lookupKey, if_neg hk] at h
      rw [eraseFirst, if_neg hk]
      have := ih h
      simp [bagCount] at this ⊢
      omega

theorem bagCount_mapInsert_none {l : List (K × List T)} {key : K}
    {v : List T} (h : lookupKey l key = none) :
    bagCount (mapInsert l key v) = bagCount l + v.length := by
  induction l with
  | nil => simp [mapInsert, bagCount]
  | cons hd tl ih =>
    obtain ⟨k, a⟩ := hd
    have hk : ¬ k = key := by
      intro he
      rw [lookupKey, if_pos he] at h
      cases h
    rw [lookupKey, if_neg hk] at h
    by_cases hlt : k < key
    · rw [mapInsert, if_pos hlt]
      have := ih h
      simp [bagCount] at this ⊢
      omega
    · rw [mapInsert, if_neg hlt, if_neg hk]
      simp [bagCount]
      omega

theorem bagCount_bagPush (l : List (K × List T)) (key : K) (e : T) :
    bagCount (bagPush l key e) = bagCount l + 1 := by
  rw [bagPush]
  cases h : lookupKey l key with
  | none => simp [bagCount_mapInsert_none h]
  | some vec =>
    dsimp only
    have := bagCount_setFirst (vec ++ [e]) h
    simp at this
    omega

end BagLemmas

section BagInvLemmas

variable {K T M : Type} [LinearOrder K] [DecidableEq T]

theorem count_add_internal {st : BagStore K T M} (key : K) (e : T)
    (h : st.count = bagCount st.store) :
    (st.add_internal key e).count = bagCount (st.add_internal key e).store := by
  simp [BagStore.add_internal, bagCount_bagPush, h]

theorem count_add_vec_internal {st : BagStore K T M} (key : K) (e : List T)
    (h : st.count = bagCount st.store) :
    (st.add_vec_internal key e).count =
      bagCount (st.add_vec_internal key e).store := by
  rw [BagStore.add_vec_internal]
  cases hl : lookupKey st.store key with
  | none => simp [bagCount_mapInsert_none hl, h]
  | some vec =>
    dsimp only
    have h1 := bagCount_setFirst (vec ++ e) hl
    simp at h1
    omega

theorem count_remove_internal {st : BagStore K T M} (key : K) (e : T)
    (h : st.count = bagCount st.store) :
    (st.remove_internal key e).2.count =
      bagCount (st.remove_internal key e).2.store := by
  rw [BagStore.remove_internal]
  cases hl : lookupKey st.store key with
  | none => exact h
  | some vec =>
    dsimp only
    cases hf : findRemove vec e with
    | none => exact h
    | some p =>
      obtain ⟨r, nv⟩ := p
      dsimp only
      have hlen := findRemove_some_length hf
      have hle := lookupKey_some_length_le hl
      by_cases hnv : nv = []
      · have h1 := bagCount_eraseFirst hl
        simp [if_pos hnv]
        subst hnv
        simp at hlen
        omega
      · have h1 := bagCount_setFirst nv hl
        simp [if_neg hnv]
        omega

theorem count_remove_vec_internal {st : BagStore K T M} (key : K)
    (vt : List T) (h : st.count = bagCount st.store) :
    (st.remove_vec_internal key vt).2.count =
      bagCount (st.remove_vec_internal key vt).2.store := by
  rw [BagStore.remove_vec_internal]
  cases hl : lookupKey st.store key with
  | none => exact h
  | some cur =>
    dsimp only
    have hlen := removeVecGo_length cur vt
    have hle := lookupKey_some_length_le hl
    have h1 := bagCount_setFirst (removeVecGo cur vt).1 hl
    omega

theorem count_fireEvent {st : BagStore K T M} {e : BagStoreEvent K T M}
    (h : st.count = bagCount st.store) :
    (st.fireEvent e).count = bagCount (st.fireEvent e).store := by
  simpa [BagStore.fireEvent] using h

theorem count_changeGo {st : BagStore K T M}
    (changes : List ((K × T) × (K × T))) (h : st.count = bagCount st.store) :
    (changeGo st changes).count = bagCount (changeGo st changes).store := by
  induction changes generalizing st with
  | nil => exact h
  | cons c rest ih =>
    obtain ⟨f, t⟩ := c
    rw [changeGo]
    exact ih (count_add_internal t.1 t.2 (count_remove_internal f.1 f.2 h))

theorem count_addAllGo {st : BagStore K T M} (m : List (K × List T))
    (h : st.count = bagCount st.store) :
    (addAllGo st m).count = bagCount (addAllGo st m).store := by
  induction m generalizing st with
  | nil => exact h
  | cons e rest ih =>
    obtain ⟨key, value⟩ := e
    rw [addAllGo]
    exact ih (count_add_vec_internal key value h)

theorem count_bulkRemoveBagGo {st : BagStore K T M} (recs : List (K × T))
    (h : st.count = bagCount st.store) :
    (bulkRemoveBagGo st recs).count =
      bagCount (bulkRemoveBagGo st recs).store := by
  induction recs generalizing st with
  | nil => exact h
  | cons e rest ih =>
    obtain ⟨k, v⟩ := e
    rw [bulkRemoveBagGo]
    exact ih (count_remove_internal k v h)

theorem count_removeAllGo {st : BagStore K T M}
    (acc m : List (K × List T)) (h : st.count = bagCount st.store) :
    (removeAllGo st acc m).2.count =
      bagCount (removeAllGo st acc m).2.store := by
  induction m generalizing st acc with
  | nil => exact h
  | cons e rest ih =>
    obtain ⟨key, vec⟩ := e
    rw [removeAllGo]
    exact ih _ (count_remove_vec_internal key vec h)

end BagInvLemmas

section BagNoEmptyLemmas

variable {K T M : Type} [LinearOrder K] [DecidableEq T]

theorem noEmpty_setFirst {l : List (K × List T)} {key : K} {nv : List T}
    (h : noEmptyBags l) (hnv : nv ≠ []) :
    noEmptyBags (setFirst l key nv) := by
  induction l with
  | nil => simp [setFirst, noEmptyBags]
  | cons hd tl ih =>
    obtain ⟨k, v⟩ := hd
    rw [setFirst]
    by_cases hk : k = key
    · rw [if_pos hk]
      intro p hp
      rcases List.mem_cons.mp hp with h1 | h1
      · simp [h1, hnv]
      · exact h p (List.mem_cons_of_mem _ h1)
    · rw [if_neg hk]
      intro p hp
      rcases List.mem_cons.mp hp with h1 | h1
      · exact h p (by simp [h1])
      · exact ih (fun q hq => h q (List.mem_cons_of_mem _ hq)) p h1

theorem noEmpty_eraseFirst {l : List (K × List T)} {key : K}
    (h : noEmptyBags l) : noEmptyBags (eraseFirst l key) := by
  induction l with
  | nil => simp [eraseFirst, noEmptyBags]
  | cons hd tl ih =>
    obtain ⟨k, v⟩ := hd
    rw [eraseFirst]
    by_cases hk : k = key
    · rw [if_pos hk]
      exact fun p hp => h p (List.mem_cons_of_mem _ hp)
    · rw [if_neg hk]
      intro p hp
      rcases List.mem_cons.mp hp with h1 | h1
      · exact h p (by simp [h1])
      · exact ih (fun q hq => h q (List.mem_cons_of_mem _ hq)) p h1

theorem noEmpty_mapInsert {l : List (K × List T)} {key : K} {v : List T}
    (h : noEmptyBags l) (hv : v ≠ []) : noEmptyBags (mapInsert l key v) := by
  induction l with
  | nil =>
    intro p hp
    rcases List.mem_singleton.mp hp with rfl
    exact hv
  | cons hd tl ih =>
    obtain ⟨k, a⟩ := hd
    rw [mapInsert]
    by_cases hlt : k < key
    · rw [if_pos hlt]
      intro p hp
      rcases List.mem_cons.mp hp with h1 | h1
      · exact h p (by simp [h1])
      · exact ih (fun q hq => h q (List.mem_cons_of_mem _ hq)) p h1
    · rw [if_neg hlt]
      by_cases hk : k = key
      · rw [if_pos hk]
        intro p hp
        rcases List.mem_cons.mp hp with h1 | h1
        · simp [h1, hv]
        · exact h p (List.mem_cons_of_mem _ h1)
      · rw [if_neg hk]
        intro p hp
        rcases List.mem_cons.mp hp with h1 | h1
        · simp [h1, hv]
        · exact h p h1

theorem noEmpty_bagPush {l : List (K × List T)} (key : K) (e : T)
    (h : noEmptyBags l) : noEmptyBags (bagPush l key e) := by
  rw [bagPush]
  cases hl : lookupKey l key with
  | none => exact noEmpty_mapInsert h (by simp)
  | some vec => exact noEmpty_setFirst h (by simp)

theorem noEmpty_add_vec_internal {st : BagStore K T M} (key : K)
    {e : List T} (h : noEmptyBags st.store) (he : e ≠ []) :
    noEmptyBags (st.add_vec_internal key e).store := by
  rw [BagStore.add_vec_internal]
  cases hl : lookupKey st.store key with
  | none => exact noEmpty_mapInsert h he
  | some vec =>
    dsimp only
    apply noEmpty_setFirst h
    simp [he]

theorem noEmpty_remove_internal {st : BagStore K T M} (key : K) (e : T)
    (h : noEmptyBags st.store) :
    noEmptyBags (st.remove_internal key e).2.store := by
  rw [BagStore.remove_internal]
  cases hl : lookupKey st.store key with
  | none => exact h
  | some vec =>
    dsimp only
    cases hf : findRemove vec e with
    | none => exact h
    | some p =>
      obtain ⟨r, nv⟩ := p
      dsimp only
      by_cases hnv : nv = []
      · rw [if_pos hnv]
        exact noEmpty_eraseFirst h
      · rw [if_neg hnv]
        exact noEmpty_setFirst h hnv

theorem noEmpty_changeGo {st : BagStore K T M}
    (changes : List ((K × T) × (K × T))) (h : noEmptyBags st.store) :
    noEmptyBags (changeGo st changes).store := by
  induction changes generalizing st with
  | nil => exact h
  | cons c rest ih =>
    obtain ⟨f, t⟩ := c
    rw [changeGo]
    apply ih
    apply noEmpty_bagPush
    exact noEmpty_remove_internal f.1 f.2 h

theorem noEmpty_groupGo {m : List (K × List T)} {models : List (K × T)}
    (h : noEmptyBags m) : noEmptyBags (groupGo m models) := by
  induction models generalizing m with
  | nil => exact h
  | cons e rest ih =>
    obtain ⟨k, v⟩ := e
    rw [groupGo]
    exact ih (noEmpty_bagPush k v h)

theorem noEmpty_addAllGo {st : BagStore K T M} {m : List (K × List T)}
    (h : noEmptyBags st.store) (hm : noEmptyBags m) :
    noEmptyBags (addAllGo st m).store := by
  induction m generalizing st with
  | nil => exact h
  | cons e rest ih =>
    obtain ⟨key, value⟩ := e
    rw [addAllGo]
    have hv : value ≠ [] := hm (key, value) (List.mem_cons_self _ _)
    exact ih (noEmpty_add_vec_internal key h hv)
      (fun q hq => hm q (List.mem_cons_of_mem _ hq))

theorem noEmpty_bulkRemoveBagGo {st : BagStore K T M} (recs : List (K × T))
    (h : noEmptyBags st.store) :
    noEmptyBags (bulkRemoveBagGo st recs).store := by
  induction recs generalizing st with
  | nil => exact h
  | cons e rest ih =>
    obtain ⟨k, v⟩ := e
    rw [bulkRemoveBagGo]
    exact ih (noEmpty_remove_internal k v h)

end BagNoEmptyLemmas

section StoreProj

variable {K T M : Type} [LinearOrder K]

theorem Store.add_store (st : Store K T M) (k : K) (v : T) (m : M) :
    (st.add k v m).2.store = (add_internal st.store k v).2 := by
  cases heq : add_internal st.store k v with
  | mk fst snd => cases fst <;> simp [Store.add, heq, Store.fireEvent]

theorem Store.add_ret (st : Store K T M) (k : K) (v : T) (m : M) :
    (st.add k v m).1 = (add_internal st.store k v).1 := by
  cases heq : add_internal st.store k v with
  | mk fst snd => cases fst <;> simp [Store.add, heq]

theorem Store.add_events_replacing {st : Store K T M} {k : K} {v : T} {m : M}
    {evs : List (StoreEvent K T M)} {r : T} (he : st.events = some evs)
    (hr : (add_internal st.store k v).1 = some r) :
    (st.add k v m).2.events =
      some (evs ++ [StoreEvent.Removed r, StoreEvent.Added v m]) := by
  cases heq : add_internal st.store k v with
  | mk fst snd =>
    rw [heq] at hr
    subst hr
    simp [Store.add, heq, Store.fireEvent, he]

theorem Store.add_events_fresh {st : Store K T M} {k : K} {v : T} {m : M}
    {evs : List (StoreEvent K T M)} (he : st.events = some evs)
    (hr : (add_internal st.store k v).1 = none) :
    (st.add k v m).2.events = some (evs ++ [StoreEvent.Added v m]) := by
  cases heq : add_internal st.store k v with
  | mk fst snd =>
    rw [heq] at hr
    subst hr
    simp [Store.add, heq, Store.fireEvent, he]

theorem Store.remove_store (st : Store K T M) (k : K) :
    (st.remove k).2.store = (remove_internal st.store k).2 := by
  cases heq : remove_internal st.store k with
  | mk fst snd => cases fst <;> simp [Store.remove, heq, Store.fireEvent]

theorem Store.remove_ret (st : Store K T M) (k : K) :
    (st.remove k).1 = (remove_internal st.store k).1 := by
  cases heq : remove_internal st.store k with
  | mk fst snd => cases fst <;> simp [Store.remove, heq]

theorem Store.change_store (st : Store K T M) (ft : List (K × (K × T)))
    (m : M) :
    (st.change ft m).2.store =
      (changeAddGo (changeRemoveGo st.store ft).2 (changeRemoveGo st.store ft).1).2 := by
  simp [Store.change, Store.fireEvent]

theorem Store.change_ret (st : Store K T M) (ft : List (K × (K × T))) (m : M) :
    (st.change ft m).1 =
      (changeAddGo (changeRemoveGo st.store ft).2 (changeRemoveGo st.store ft).1).1 := by
  simp [Store.change]

theorem Store.bulk_add_store (st : Store K T M) (recs : List (K × T)) (m : M) :
    (st.bulk_add recs m).2.store = (bulkAddGo st.store recs).2 := by
  simp [Store.bulk_add, Store.fireEvent]

theorem Store.bulk_remove_store (st : Store K T M) (recs : List K) (m : M) :
    (st.bulk_remove recs m).2.store = (bulkRemoveGo st.store recs).2 := by
  simp [Store.bulk_remove, Store.fireEvent]

theorem Store.retain_values_store (st : Store K T M) (m : M) (f : T → Bool) :
    (st.retain_values m f).2.store = st.store.filter (fun p => f p.2) := by
  simp [Store.retain_values, Store.fireEvent]

end StoreProj

/-- C5: for every Single-Value Store, each operation of the API (add, remove,
change, bulk_add, bulk_remove, pop_first, replace, replace_mut,
retain_values, update_at_idx, clear) preserves the strict ascending key
order of the backing sequence, so after any sequence of operations starting
from a sorted store the invariant `∀ i < j, store[i].key < store[j].key`
holds and no duplicate keys exist. -/
theorem C5_sort_invariant {K T M : Type} [LinearOrder K] :
    (∀ (st : Store K T M) (k : K) (v : T) (m : M),
      keySorted st.store → keySorted (st.add k v m).2.store)
    ∧ (∀ (st : Store K T M) (k : K),
      keySorted st.store → keySorted (st.remove k).2.store)
    ∧ (∀ (st : Store K T M) (ft : List (K × (K × T))) (m : M),
      keySorted st.store → keySorted (st.change ft m).2.store)
    ∧ (∀ (st : Store K T M) (recs : List (K × T)) (m : M),
      keySorted st.store → keySorted (st.bulk_add recs m).2.store)
    ∧ (∀ (st : Store K T M) (recs : List K) (m : M),
      keySorted st.store → keySorted (st.bulk_remove recs m).2.store)
    ∧ (∀ (st : Store K T M),
      keySorted st.store → keySorted st.pop_first.2.store)
    ∧ (∀ (st : Store K T M) (k : K) (m : M) (f : Option T → T),
      keySorted st.store → keySorted (st.replace k m f).store)
    ∧ (∀ (st : Store K T M) (k : K) (m : M) (g : T → T)
        (f : Option T → Option T),
      keySorted st.store → keySorted (st.replace_mut k m g f).store)
    ∧ (∀ (st : Store K T M) (m : M) (f : T → Bool),
      keySorted st.store → keySorted (st.retain_values m f).2.store)
    ∧ (∀ (st : Store K T M) (idx : Nat) (v : T) (m : M) (st2 : Store K T M),
      st.update_at_idx idx v m = some st2 →
      keySorted st.store → keySorted st2.store)
    ∧ (∀ (st : Store K T M), keySorted st.clear.store) := by
  refine ⟨?_, ?_, ?_, ?_, ?_, ?_, ?_, ?_, ?_, ?_, ?_⟩
  · intro st k v m h
    rw [Store.add_store]
    exact keySorted_add_internal h
  · intro st k h
    rw [Store.remove_store]
    exact keySorted_remove_internal h
  · intro st ft m h
    rw [Store.change_store]
    exact keySorted_changeAddGo (keySorted_changeRemoveGo h)
  · intro st recs m h
    rw [Store.bulk_add_store]
    exact keySorted_bulkAddGo h
  · intro st recs m h
    rw [Store.bulk_remove_store]
    exact keySorted_bulkRemoveGo h
  · intro st h
    obtain ⟨s, evs⟩ := st
    cases s with
    | nil => exact h
    | cons hd tl =>
      obtain ⟨k, v⟩ := hd
      simp only [Store.pop_first, Store.fireEvent]
      exact (List.pairwise_cons.mp h).2
  · intro st k m f h
    obtain ⟨s, evs⟩ := st
    cases evs with
    | none =>
      cases hs : searchKey s k with
      | inl idx =>
        cases hc : s[idx]? with
        | some cur =>
          simp only [Store.replace, hs, hc]
          rw [show (Store.mk s (none : Option (List (StoreEvent K T M)))).store
              = s from rfl] at h
          exact set_eq_add_internal_snd hs hc ▸ keySorted_add_internal h
        | none => simpa [Store.replace, hs, hc] using h
      | inr idx =>
        simp only [Store.replace, hs]
        exact insertIdx_eq_add_internal_snd hs ▸ keySorted_add_internal h
    | some evl =>
      cases hs : searchKey s k with
      | inl idx =>
        cases hc : s[idx]? with
        | some cur =>
          simp only [Store.replace, hs, hc]
          exact set_eq_add_internal_snd hs hc ▸ keySorted_add_internal h
        | none => simpa [Store.replace, hs, hc] using h
      | inr idx =>
        simp only [Store.replace, hs]
        exact insertIdx_eq_add_internal_snd hs ▸ keySorted_add_internal h
  · intro st k m g f h
    obtain ⟨s, evs⟩ := st
    cases evs with
    | none =>
      cases hs : searchKey s k with
      | inl idx =>
        cases hc : s[idx]? with
        | some cur =>
          obtain ⟨a, ha⟩ := searchKey_inl_key hs
          have hcur : cur = (k, a) := by rw [hc] at ha; injection ha
          subst hcur
          cases hf : f (some (k, a).2) with
          | none =>
            simp only [Store.replace_mut, hs, hc, hf]
            exact set_eq_add_internal_snd hs hc ▸ keySorted_add_internal h
          | some nv =>
            simp only [Store.replace_mut, hs, hc, hf]
            exact set_eq_add_internal_snd hs hc ▸ keySorted_add_internal h
        | none => simpa [Store.replace_mut, hs, hc] using h
      | inr idx =>
        cases hf : f none with
        | none => simpa [Store.replace_mut, hs, hf] using h
        | some nv =>
          simp only [Store.replace_mut, hs, hf]
          exact insertIdx_eq_add_internal_snd hs ▸ keySorted_add_internal h
    | some evl =>
      cases hs : searchKey s k with
      | inl idx =>
        cases hc : s[idx]? with
        | some cur =>
          simp only [Store.replace_mut, hs, hc]
          exact set_eq_add_internal_snd hs hc ▸ keySorted_add_internal h
        | none => simpa [Store.replace_mut, hs, hc] using h
      | inr idx =>
        cases hf : f none with
        | none => simpa [Store.replace_mut, hs, hf] using h
        | some nv =>
          simp only [Store.replace_mut, hs, hf]
          exact insertIdx_eq_add_internal_snd hs ▸ keySorted_add_internal h
  · intro st m f h
    rw [Store.retain_values_store]
    exact List.Pairwise.sublist (List.filter_sublist _) h
  · intro st idx v m st2 hu h
    obtain ⟨s, evs⟩ := st
    cases evs with
    | none =>
      cases hc : s[idx]? with
      | none => simp [Store.update_at_idx, hc] at hu
      | some e =>
        simp only [Store.update_at_idx, hc, Option.some.injEq] at hu
        subst hu
        have hse := searchKey_of_getElem h hc
        exact set_eq_add_internal_snd hse hc ▸ keySorted_add_internal h
    | some evl =>
      cases hc : s[idx]? with
      | none => simp [Store.update_at_idx, hc] at hu
      | some e =>
        simp only [Store.update_at_idx, hc, Option.some.injEq] at hu
        subst hu
        have hse := searchKey_of_getElem h hc
        exact set_eq_add_internal_snd hse hc ▸ keySorted_add_internal h
  · intro st
    simp [Store.clear, Store.fireEvent, keySorted]

/-- C5 witness: the preservation statements applied to a concrete sorted
store over natural-number keys and values. -/
theorem C5_sort_invariant_witness :
    keySorted ((⟨[(1, 10), (3, 30)], none⟩ : Store Nat Nat Unit).add 2 5 ()).2.store
    ∧ keySorted ((⟨[(1, 10), (3, 30)], none⟩ : Store Nat Nat Unit).remove 1).2.store
    ∧ keySorted ((⟨[(1, 10), (3, 30)], none⟩ : Store Nat Nat Unit).change
        [(1, (4, 7))] ()).2.store
    ∧ keySorted ((⟨[(1, 10), (3, 30)], none⟩ : Store Nat Nat Unit).bulk_add
        [(2, 20), (3, 33)] ()).2.store
    ∧ keySorted ((⟨[(1, 10), (3, 30)], none⟩ : Store Nat Nat Unit).bulk_remove
        [3, 7] ()).2.store
    ∧ keySorted (⟨[(1, 10), (3, 30)], none⟩ : Store Nat Nat Unit).pop_first.2.store
    ∧ keySorted ((⟨[(1, 10), (3, 30)], none⟩ : Store Nat Nat Unit).replace 2 ()
        (fun o => o.getD 0 + 1)).store
    ∧ keySorted ((⟨[(1, 10), (3, 30)], none⟩ : Store Nat Nat Unit).replace_mut 1 ()
        (fun v => v + 1) (fun _ => none)).store
    ∧ keySorted ((⟨[(1, 10), (3, 30)], none⟩ : Store Nat Nat Unit).retain_values ()
        (fun v => decide (v < 20))).2.store
    ∧ keySorted (⟨[(1, 7), (3, 30)], none⟩ : Store Nat Nat Unit).store
    ∧ keySorted (⟨[(1, 10), (3, 30)], none⟩ : Store Nat Nat Unit).clear.store := by
  refine ⟨?_, ?_, ?_, ?_, ?_, ?_, ?_, ?_, ?_, ?_, ?_⟩
  · exact C5_sort_invariant.1 _ 2 5 () (by decide)
  · exact C5_sort_invariant.2.1 _ 1 (by decide)
  · exact C5_sort_invariant.2.2.1 _ [(1, (4, 7))] () (by decide)
  · exact C5_sort_invariant.2.2.2.1 _ [(2, 20), (3, 33)] () (by decide)
  · exact C5_sort_invariant.2.2.2.2.1 _ [3, 7] () (by decide)
  · exact C5_sort_invariant.2.2.2.2.2.1 _ (by decide)
  · exact C5_sort_invariant.2.2.2.2.2.2.1 _ 2 () _ (by decide)
  · exact C5_sort_invariant.2.2.2.2.2.2.2.1 _ 1 () _ _ (by decide)
  · exact C5_sort_invariant.2.2.2.2.2.2.2.2.1 _ () _ (by decide)
  · exact C5_sort_invariant.2.2.2.2.2.2.2.2.2.1
      (⟨[(1, 10), (3, 30)], none⟩ : Store Nat Nat Unit) 0 7 ()
      (⟨[(1, 7), (3, 30)], none⟩ : Store Nat Nat Unit) (by decide) (by decide)
  · exact C5_sort_invariant.2.2.2.2.2.2.2.2.2.2 _

/-- C4: for every Bag Store, each operation (add, add_vec, remove,
remove_vec, remove_all, change, bulk_add, bulk_remove, pop_first, clear)
preserves the count invariant: `len()` (the incrementally maintained
counter, never recomputed by traversal) equals the sum over all keys of the
number of values stored under that key; in particular a remove of a
non-existent value changes nothing. -/
theorem C4_count_invariant {K T M : Type} [LinearOrder K] [DecidableEq T] :
    (∀ (st : BagStore K T M) (key : K) (e : T),
      st.len = bagCount st.store →
      (st.add key e).len = bagCount (st.add key e).store)
    ∧ (∀ (st : BagStore K T M) (key : K) (e : List T),
      st.len = bagCount st.store →
      (st.add_vec key e).len = bagCount (st.add_vec key e).store)
    ∧ (∀ (st : BagStore K T M) (key : K) (e : T),
      st.len = bagCount st.store →
      (st.remove key e).2.len = bagCount (st.remove key e).2.store)
    ∧ (∀ (st : BagStore K T M) (key : K) (vt : List T),
      st.len = bagCount st.store →
      (st.remove_vec key vt).len = bagCount (st.remove_vec key vt).store)
    ∧ (∀ (st : BagStore K T M) (m : List (K × List T)),
      st.len = bagCount st.store →
      (st.remove_all m).len = bagCount (st.remove_all m).store)
    ∧ (∀ (st : BagStore K T M) (changes : List ((K × T) × (K × T))),
      st.len = bagCount st.store →
      (st.change changes).len = bagCount (st.change changes).store)
    ∧ (∀ (st : BagStore K T M) (models : List (K × T)) (m : M),
      st.len = bagCount st.store →
      (st.bulk_add models m).len = bagCount (st.bulk_add models m).store)
    ∧ (∀ (st : BagStore K T M) (recs : List (K × T)),
      st.len = bagCount st.store →
      (st.bulk_remove recs).len = bagCount (st.bulk_remove recs).store)
    ∧ (∀ (st : BagStore K T M),
      st.len = bagCount st.store →
      st.pop_first.2.len = bagCount st.pop_first.2.store)
    ∧ (∀ (st : BagStore K T M), st.clear.len = bagCount st.clear.store) := by
  refine ⟨?_, ?_, ?_, ?_, ?_, ?_, ?_, ?_, ?_, ?_⟩
  · intro st key e h
    have hint := count_add_internal key e h
    simpa [BagStore.add, BagStore.fireEvent, BagStore.len] using hint
  · intro st key e h
    have hint := count_add_vec_internal key e h
    simpa [BagStore.add_vec, BagStore.fireEvent, BagStore.len] using hint
  · intro st key e h
    have hint := count_remove_internal key e h
    cases heq : st.remove_internal key e with
    | mk fst snd =>
      rw [heq] at hint
      cases fst with
      | none => simpa [BagStore.remove, heq, BagStore.len] using hint
      | some r =>
        simpa [BagStore.remove, heq, BagStore.len, BagStore.fireEvent] using hint
  · intro st key vt h
    have hint := count_remove_vec_internal key vt h
    simpa [BagStore.remove_vec, BagStore.fireEvent, BagStore.len] using hint
  · intro st m h
    have hint := count_removeAllGo [] m h
    simpa [BagStore.remove_all, BagStore.fireEvent, BagStore.len] using hint
  · intro st changes h
    have hint := count_changeGo changes h
    simpa [BagStore.change, BagStore.fireEvent, BagStore.len] using hint
  · intro st models m h
    have hint := count_addAllGo (groupGo [] models) h
    simpa [BagStore.bulk_add, BagStore.add_all, BagStore.fireEvent,
      BagStore.len] using hint
  · intro st recs h
    have hint := count_bulkRemoveBagGo recs h
    simpa [BagStore.bulk_remove, BagStore.fireEvent, BagStore.len] using hint
  · intro st h
    obtain ⟨s, evs, c⟩ := st
    cases s with
    | nil => exact h
    | cons hd tl =>
      obtain ⟨k, v⟩ := hd
      simp only [BagStore.pop_first, BagStore.fireEvent, BagStore.len] at h ⊢
      simp only [bagCount, List.map_cons, List.sum_cons] at h ⊢
      omega
  · intro st
    simp [BagStore.clear, BagStore.fireEvent, BagStore.len, bagCount]

/-- C4 witness: the count-invariant preservation applied to a concrete Bag
Store holding three values under two keys. -/
theorem C4_count_invariant_witness :
    ((⟨[(1, [5, 6]), (3, [7])], none, 3⟩ : BagStore Nat Nat Unit).add 1 9).len =
      bagCount ((⟨[(1, [5, 6]), (3, [7])], none, 3⟩ :
        BagStore Nat Nat Unit).add 1 9).store
    ∧ ((⟨[(1, [5, 6]), (3, [7])], none, 3⟩ : BagStore Nat Nat Unit).add_vec 2
        [8, 9]).len = bagCount ((⟨[(1, [5, 6]), (3, [7])], none, 3⟩ :
        BagStore Nat Nat Unit).add_vec 2 [8, 9]).store
    ∧ ((⟨[(1, [5, 6]), (3, [7])], none, 3⟩ : BagStore Nat Nat Unit).remove 1
        5).2.len = bagCount ((⟨[(1, [5, 6]), (3, [7])], none, 3⟩ :
        BagStore Nat Nat Unit).remove 1 5).2.store
    ∧ ((⟨[(1, [5, 6]), (3, [7])], none, 3⟩ : BagStore Nat Nat Unit).remove_vec 1
        [5, 6]).len = bagCount ((⟨[(1, [5, 6]), (3, [7])], none, 3⟩ :
        BagStore Nat Nat Unit).remove_vec 1 [5, 6]).store
    ∧ ((⟨[(1, [5, 6]), (3, [7])], none, 3⟩ : BagStore Nat Nat Unit).remove_all
        [(1, [5])]).len = bagCount ((⟨[(1, [5, 6]), (3, [7])], none, 3⟩ :
        BagStore Nat Nat Unit).remove_all [(1, [5])]).store
    ∧ ((⟨[(1, [5, 6]), (3, [7])], none, 3⟩ : BagStore Nat Nat Unit).change
        [((1, 5), (2, 9))]).len = bagCount ((⟨[(1, [5, 6]), (3, [7])], none, 3⟩ :
        BagStore Nat Nat Unit).change [((1, 5), (2, 9))]).store
    ∧ ((⟨[(1, [5, 6]), (3, [7])], none, 3⟩ : BagStore Nat Nat Unit).bulk_add
        [(2, 8), (2, 9)] ()).len = bagCount ((⟨[(1, [5, 6]), (3, [7])], none, 3⟩ :
        BagStore Nat Nat Unit).bulk_add [(2, 8), (2, 9)] ()).store
    ∧ ((⟨[(1, [5, 6]), (3, [7])], none, 3⟩ : BagStore Nat Nat Unit).bulk_remove
        [(1, 6), (4, 2)]).len = bagCount ((⟨[(1, [5, 6]), (3, [7])], none, 3⟩ :
        BagStore Nat Nat Unit).bulk_remove [(1, 6), (4, 2)]).store
    ∧ (⟨[(1, [5, 6]), (3, [7])], none, 3⟩ :
        BagStore Nat Nat Unit).pop_first.2.len =
      bagCount (⟨[(1, [5, 6]), (3, [7])], none, 3⟩ :
        BagStore Nat Nat Unit).pop_first.2.store
    ∧ (⟨[(1, [5, 6]), (3, [7])], none, 3⟩ : BagStore Nat Nat Unit).clear.len =
      bagCount (⟨[(1, [5, 6]), (3, [7])], none, 3⟩ :
        BagStore Nat Nat Unit).clear.store := by
  refine ⟨?_, ?_, ?_, ?_, ?_, ?_, ?_, ?_, ?_, ?_⟩
  · exact C4_count_invariant.1 _ 1 9 (by decide)
  · exact C4_count_invariant.2.1 _ 2 [8, 9] (by decide)
  · exact C4_count_invariant.2.2.1 _ 1 5 (by decide)
  · exact C4_count_invariant.2.2.2.1 _ 1 [5, 6] (by decide)
  · exact C4_count_invariant.2.2.2.2.1 _ [(1, [5])] (by decide)
  · exact C4_count_invariant.2.2.2.2.2.1 _ [((1, 5), (2, 9))] (by decide)
  · exact C4_count_invariant.2.2.2.2.2.2.1 _ [(2, 8), (2, 9)] () (by decide)
  · exact C4_count_invariant.2.2.2.2.2.2.2.1 _ [(1, 6), (4, 2)] (by decide)
  · exact C4_count_invariant.2.2.2.2.2.2.2.2.1 _ (by decide)
  · exact C4_count_invariant.2.2.2.2.2.2.2.2.2 _

/-- C2 counterexample: the no-empty-bags invariant fails on the code as
stated.  `remove_vec` of a key's last value writes the empty sequence back
under the key instead of dropping it, `add_vec` with an empty vector creates
an empty bag, and `remove_all` (which iterates `remove_vec_internal`) leaves
one as well. -/
theorem C2_counterexample :
    ¬ noEmptyBags (((BagStore.new false : BagStore Nat Nat Unit).add 0
        5).remove_vec 0 [5]).store
    ∧ (((BagStore.new false : BagStore Nat Nat Unit).add 0 5).remove_vec 0
        [5]).store = [(0, [])]
    ∧ ((BagStore.new false : BagStore Nat Nat Unit).add_vec 5 []).store =
        [(5, [])]
    ∧ (((BagStore.new false : BagStore Nat Nat Unit).add 0 7).remove_all
        [(0, [7])]).store = [(0, [])] := by
  refine ⟨?_, by decide, by decide, by decide⟩
  intro h
  exact absurd (h (0, []) (by decide)) (by simp)

/-- C2 amended: no key with an empty value sequence remains after the
operations add, remove, change, bulk_add, bulk_remove, pop_first and clear,
and after add_vec with a non-empty vector; the operations remove_vec and
remove_all (which write a possibly-empty surviving sequence back under the
key) and add_vec with an empty vector are excluded, as they can leave an
empty bag behind. -/
theorem C2_no_empty_bags_amended {K T M : Type} [LinearOrder K]
    [DecidableEq T] :
    (∀ (st : BagStore K T M) (key : K) (e : T),
      noEmptyBags st.store → noEmptyBags (st.add key e).store)
    ∧ (∀ (st : BagStore K T M) (key : K) (e : List T), e ≠ [] →
      noEmptyBags st.store → noEmptyBags (st.add_vec key e).store)
    ∧ (∀ (st : BagStore K T M) (key : K) (e : T),
      noEmptyBags st.store → noEmptyBags (st.remove key e).2.store)
    ∧ (∀ (st : BagStore K T M) (changes : List ((K × T) × (K × T))),
      noEmptyBags st.store → noEmptyBags (st.change changes).store)
    ∧ (∀ (st : BagStore K T M) (models : List (K × T)) (m : M),
      noEmptyBags st.store → noEmptyBags (st.bulk_add models m).store)
    ∧ (∀ (st : BagStore K T M) (recs : List (K × T)),
      noEmptyBags st.store → noEmptyBags (st.bulk_remove recs).store)
    ∧ (∀ (st : BagStore K T M),
      noEmptyBags st.store → noEmptyBags st.pop_first.2.store)
    ∧ (∀ (st : BagStore K T M), noEmptyBags st.clear.store) := by
  refine ⟨?_, ?_, ?_, ?_, ?_, ?_, ?_, ?_⟩
  · intro st key e h
    simpa [BagStore.add, BagStore.add_internal, BagStore.fireEvent]
      using noEmpty_bagPush key e h
  · intro st key e he h
    simpa [BagStore.add_vec, BagStore.fireEvent]
      using noEmpty_add_vec_internal key h he
  · intro st key e h
    have hint := noEmpty_remove_internal key e h
    cases heq : st.remove_internal key e with
    | mk fst snd =>
      rw [heq] at hint
      cases fst with
      | none => simpa [BagStore.remove, heq] using hint
      | some r => simpa [BagStore.remove, heq, BagStore.fireEvent] using hint
  · intro st changes h
    simpa [BagStore.change, BagStore.fireEvent]
      using noEmpty_changeGo changes h
  · intro st models m h
    have hg : noEmptyBags (groupGo ([] : List (K × List T)) models) :=
      noEmpty_groupGo (by simp [noEmptyBags])
    simpa [BagStore.bulk_add, BagStore.add_all, BagStore.fireEvent]
      using noEmpty_addAllGo h hg
  · intro st recs h
    simpa [BagStore.bulk_remove, BagStore.fireEvent]
      using noEmpty_bulkRemoveBagGo recs h
  · intro st h
    obtain ⟨s, evs, c⟩ := st
    cases s with
    | nil => exact h
    | cons hd tl =>
      obtain ⟨k, v⟩ := hd
      simp only [BagStore.pop_first, BagStore.fireEvent]
      exact fun p hp => h p (List.mem_cons_of_mem _ hp)
  · intro st
    simp [BagStore.clear, BagStore.fireEvent, noEmptyBags]

/-- C2 witness: the amended no-empty-bags preservation applied to a concrete
Bag Store. -/
theorem C2_no_empty_bags_amended_witness :
    noEmptyBags ((⟨[(1, [5, 6]), (3, [7])], none, 3⟩ :
      BagStore Nat Nat Unit).add 1 9).store
    ∧ noEmptyBags ((⟨[(1, [5, 6]), (3, [7])], none, 3⟩ :
      BagStore Nat Nat Unit).add_vec 2 [8]).store
    ∧ noEmptyBags ((⟨[(1, [5, 6]), (3, [7])], none, 3⟩ :
      BagStore Nat Nat Unit).remove 3 7).2.store
    ∧ noEmptyBags ((⟨[(1, [5, 6]), (3, [7])], none, 3⟩ :
      BagStore Nat Nat Unit).change [((3, 7), (2, 9))]).store
    ∧ noEmptyBags ((⟨[(1, [5, 6]), (3, [7])], none, 3⟩ :
      BagStore Nat Nat Unit).bulk_add [(2, 8), (2, 9)] ()).store
    ∧ noEmptyBags ((⟨[(1, [5, 6]), (3, [7])], none, 3⟩ :
      BagStore Nat Nat Unit).bulk_remove [(1, 5)]).store
    ∧ noEmptyBags (⟨[(1, [5, 6]), (3, [7])], none, 3⟩ :
      BagStore Nat Nat Unit).pop_first.2.store
    ∧ noEmptyBags (⟨[(1, [5, 6]), (3, [7])], none, 3⟩ :
      BagStore Nat Nat Unit).clear.store := by
  refine ⟨?_, ?_, ?_, ?_, ?_, ?_, ?_, ?_⟩
  · exact C2_no_empty_bags_amended.1 _ 1 9 (by decide)
  · exact C2_no_empty_bags_amended.2.1 _ 2 [8] (by decide) (by decide)
  · exact C2_no_empty_bags_amended.2.2.1 _ 3 7 (by decide)
  · exact C2_no_empty_bags_amended.2.2.2.1 _ [((3, 7), (2, 9))] (by decide)
  · exact C2_no_empty_bags_amended.2.2.2.2.1 _ [(2, 8), (2, 9)] () (by decide)
  · exact C2_no_empty_bags_amended.2.2.2.2.2.1 _ [(1, 5)] (by decide)
  · exact C2_no_empty_bags_amended.2.2.2.2.2.2.1 _ (by decide)
  · exact C2_no_empty_bags_amended.2.2.2.2.2.2.2 _

/-- C9: removing a key that is not present in a Single-Value Store, or a
key/value pair that is not present in a Bag Store, returns `none`, leaves
the whole store (contents and event log, recording enabled or not)
unchanged, and appends nothing to the event log. -/
theorem C9_noop_remove {K T M : Type} [LinearOrder K] [DecidableEq T] :
    (∀ (st : Store K T M) (k : K),
      (∀ p ∈ st.store, p.1 ≠ k) → st.remove k = (none, st))
    ∧ (∀ (st : BagStore K T M) (key : K) (e : T),
      e ∉ st.get key → st.remove key e = (none, st)) := by
  constructor
  · intro st k h
    have hn : lookupKey st.store k = none := lookupKey_eq_none_iff.mpr h
    obtain ⟨s, evs⟩ := st
    simp [Store.remove, remove_internal_of_lookup_none hn]
  · intro st key e h
    obtain ⟨s, evs, c⟩ := st
    cases hl : lookupKey s key with
    | none => simp [BagStore.remove, BagStore.remove_internal, hl]
    | some vec =>
      have he : e ∉ vec := by
        simp only [BagStore.get] at h
        rw [hl] at h
        simpa using h
      simp [BagStore.remove, BagStore.remove_internal, hl,
        findRemove_none_of_not_mem he]

/-- C9 witness: no-op removes on concrete stores with event recording
enabled. -/
theorem C9_noop_remove_witness :
    (⟨[(1, 10)], some []⟩ : Store Nat Nat Unit).remove 5 =
      (none, (⟨[(1, 10)], some []⟩ : Store Nat Nat Unit))
    ∧ (⟨[(1, [10])], some [], 1⟩ : BagStore Nat Nat Unit).remove 1 7 =
      (none, (⟨[(1, [10])], some [], 1⟩ : BagStore Nat Nat Unit)) := by
  constructor
  · exact C9_noop_remove.1 _ 5 (by decide)
  · exact C9_noop_remove.2 _ 1 7 (by decide)

theorem update_at_idx_store {K T M : Type} [LinearOrder K]
    (st : Store K T M) (idx : Nat) (v : T) (m : M) {e : K × T}
    (hc : st.store[idx]? = some e) :
    ∃ st2, st.update_at_idx idx v m = some st2
      ∧ st2.store = st.store.set idx (e.1, v) := by
  obtain ⟨s, evs⟩ := st
  cases evs with
  | none =>
    exact ⟨⟨s.set idx (e.1, v), none⟩, by simp [Store.update_at_idx, hc], rfl⟩
  | some evl =>
    exact ⟨⟨s.set idx (e.1, v),
      some (evl ++ [StoreEvent.Changed [(e, (e.1, v))] [] m])⟩,
      by simp [Store.update_at_idx, hc], rfl⟩

/-- C10: for an index inside the store, `update_at_idx` succeeds and
replaces only the value at that position, preserving the entry's key, the
store length, every other entry, and the sort invariant; the resulting
backing sequence is the same whatever the event log option is. -/
theorem C10_update_at_idx {K T M : Type} [LinearOrder K] :
    ∀ (st : Store K T M) (idx : Nat) (v : T) (m : M),
      idx < st.store.length →
      ∃ st2, st.update_at_idx idx v m = some st2
        ∧ st2.store.length = st.store.length
        ∧ st2.store[idx]? = (st.store[idx]?).map (fun p => (p.1, v))
        ∧ (∀ j, j ≠ idx → st2.store[j]? = st.store[j]?)
        ∧ (keySorted st.store → keySorted st2.store)
        ∧ (∀ evs2 : Option (List (StoreEvent K T M)),
            ∃ st3, (Store.mk st.store evs2).update_at_idx idx v m = some st3
              ∧ st3.store = st2.store) := by
  intro st idx v m hidx
  have hc : st.store[idx]? = some st.store[idx] := List.getElem?_eq_getElem hidx
  obtain ⟨st2, hu, hs⟩ := update_at_idx_store st idx v m hc
  refine ⟨st2, hu, ?_, ?_, ?_, ?_, ?_⟩
  · simp [hs]
  · rw [hs, hc, List.getElem?_set]
    simp [hidx]
  · intro j hj
    rw [hs, List.getElem?_set_ne (Ne.symm hj)]
  · intro hsorted
    have hse := searchKey_of_getElem hsorted hc
    rw [hs]
    exact set_eq_add_internal_snd hse hc ▸ keySorted_add_internal hsorted
  · intro evs2
    obtain ⟨st3, hu3, hs3⟩ :=
      update_at_idx_store (Store.mk st.store evs2) idx v m hc
    exact ⟨st3, hu3, by rw [hs3, hs]⟩

/-- C10 witness: updating position 1 of a concrete three-entry store. -/
theorem C10_update_at_idx_witness :
    ∃ st2, (⟨[(1, 10), (3, 30), (5, 50)], some []⟩ :
        Store Nat Nat Unit).update_at_idx 1 77 () = some st2
      ∧ st2.store.length =
          (⟨[(1, 10), (3, 30), (5, 50)], some []⟩ :
            Store Nat Nat Unit).store.length
      ∧ st2.store[1]? = ((⟨[(1, 10), (3, 30), (5, 50)], some []⟩ :
          Store Nat Nat Unit).store[1]?).map (fun p => (p.1, 77))
      ∧ (∀ j, j ≠ 1 → st2.store[j]? =
          (⟨[(1, 10), (3, 30), (5, 50)], some []⟩ :
            Store Nat Nat Unit).store[j]?)
      ∧ (keySorted (⟨[(1, 10), (3, 30), (5, 50)], some []⟩ :
          Store Nat Nat Unit).store → keySorted st2.store)
      ∧ (∀ evs2 : Option (List (StoreEvent Nat Nat Unit)),
          ∃ st3, (Store.mk (⟨[(1, 10), (3, 30), (5, 50)], some []⟩ :
              Store Nat Nat Unit).store evs2).update_at_idx 1 77 () = some st3
            ∧ st3.store = st2.store) :=
  C10_update_at_idx _ 1 77 () (by decide)

/-- C6: with event recording enabled, `add` on an existing key replaces the
value in place, returns the displaced old value, and appends `Removed(old)`
then `Added(new)`; on an absent key it inserts at the sorted position,
returns `none`, and appends only `Added(new)`.  Consequently
`add(k, v1); add(k, v2)` leaves exactly one entry at `k` holding `v2`, and
the second call returns `v1`. -/
theorem C6_add_semantics {K T M : Type} [LinearOrder K] :
    (∀ (st : Store K T M) (k : K) (v : T) (m : M)
        (evs : List (StoreEvent K T M)) (old : T),
      st.events = some evs → keySorted st.store →
      lookupKey st.store k = some old →
      (st.add k v m).1 = some old
      ∧ lookupKey (st.add k v m).2.store k = some v
      ∧ (∀ x, x ≠ k →
          lookupKey (st.add k v m).2.store x = lookupKey st.store x)
      ∧ (st.add k v m).2.store.length = st.store.length
      ∧ (st.add k v m).2.events =
          some (evs ++ [StoreEvent.Removed old, StoreEvent.Added v m]))
    ∧ (∀ (st : Store K T M) (k : K) (v : T) (m : M)
        (evs : List (StoreEvent K T M)),
      st.events = some evs → keySorted st.store →
      lookupKey st.store k = none →
      (st.add k v m).1 = none
      ∧ lookupKey (st.add k v m).2.store k = some v
      ∧ (∀ x, x ≠ k →
          lookupKey (st.add k v m).2.store x = lookupKey st.store x)
      ∧ (st.add k v m).2.store.length = st.store.length + 1
      ∧ (st.add k v m).2.events = some (evs ++ [StoreEvent.Added v m]))
    ∧ (∀ (st : Store K T M) (k : K) (v1 v2 : T) (m1 m2 : M),
      keySorted st.store →
      ((st.add k v1 m1).2.add k v2 m2).1 = some v1
      ∧ lookupKey ((st.add k v1 m1).2.add k v2 m2).2.store k = some v2
      ∧ (((st.add k v1 m1).2.add k v2 m2).2.store.filter
          (fun p => decide (p.1 = k))).length = 1) := by
  refine ⟨?_, ?_, ?_⟩
  · intro st k v m evs old he hsorted hl
    have hfst : (add_internal st.store k v).1 = some old := by
      rw [add_internal_fst hsorted, hl]
    refine ⟨?_, ?_, ?_, ?_, ?_⟩
    · rw [Store.add_ret, hfst]
    · rw [Store.add_store, lookupKey_add_internal]
      simp
    · intro x hx
      rw [Store.add_store, lookupKey_add_internal, if_neg hx]
    · rw [Store.add_store, length_add_internal, hfst]
      simp
    · exact Store.add_events_replacing he hfst
  · intro st k v m evs he hsorted hl
    have hfst : (add_internal st.store k v).1 = none := by
      rw [add_internal_fst hsorted, hl]
    refine ⟨?_, ?_, ?_, ?_, ?_⟩
    · rw [Store.add_ret, hfst]
    · rw [Store.add_store, lookupKey_add_internal]
      simp
    · intro x hx
      rw [Store.add_store, lookupKey_add_internal, if_neg hx]
    · rw [Store.add_store, length_add_internal, hfst]
      simp
    · exact Store.add_events_fresh he hfst
  · intro st k v1 v2 m1 m2 hsorted
    have hsorted1 : keySorted (st.add k v1 m1).2.store := by
      rw [Store.add_store]
      exact keySorted_add_internal hsorted
    have hl1 : lookupKey (st.add k v1 m1).2.store k = some v1 := by
      rw [Store.add_store, lookupKey_add_internal]
      simp
    have hsorted2 : keySorted ((st.add k v1 m1).2.add k v2 m2).2.store := by
      rw [Store.add_store]
      exact keySorted_add_internal hsorted1
    have hl2 : lookupKey ((st.add k v1 m1).2.add k v2 m2).2.store k =
        some v2 := by
      rw [Store.add_store, lookupKey_add_internal]
      simp
    refine ⟨?_, hl2, filter_key_eq_one hsorted2 hl2⟩
    rw [Store.add_ret, add_internal_fst hsorted1, hl1]

/-- C6 witness: the replace-or-insert semantics of `add` on concrete stores
with event recording enabled. -/
theorem C6_add_semantics_witness :
    ((⟨[(1, 10)], some []⟩ : Store Nat Nat Unit).add 1 20 ()).1 = some 10
    ∧ ((⟨[(1, 10)], some []⟩ : Store Nat Nat Unit).add 2 30 ()).1 = none
    ∧ (((⟨[], some []⟩ : Store Nat Nat Unit).add 4 1 ()).2.add 4 2 ()).1 =
        some 1 :=
  ⟨(C6_add_semantics.1 _ 1 20 () [] 10 rfl (by decide) (by decide)).1,
   (C6_add_semantics.2.1 _ 2 30 () [] rfl (by decide) (by decide)).1,
   (C6_add_semantics.2.2 _ 4 1 2 () () (by decide)).1⟩

/-- C7: `range` resolves the two bounds to positions by binary search and
returns the contiguous sub-sequence between them with its absolute start
index; the result is empty when the store is empty or the resolved start
equals the resolved end.  On a store with keys 10, 20, 30:
`range(15..=25)` is exactly the entry at key 20 with start index 1,
`range(10..=30)` is all three entries with start index 0, and `range(31..)`
is empty. -/
theorem C7_range :
    (∀ (K T M : Type) [LinearOrder K] (st : Store K T M) (sb eb : RBound K),
      st.store = [] → st.range sb eb = (0, []))
    ∧ (∀ (K T M : Type) [LinearOrder K] (st : Store K T M) (sb eb : RBound K),
      st.rangeStart sb = st.rangeEnd eb → st.range sb eb = (0, []))
    ∧ (⟨[(10, 100), (20, 200), (30, 300)], none⟩ : Store Nat Nat Unit).range
        (RBound.included 15) (RBound.included 25) = (1, [(20, 200)])
    ∧ (⟨[(10, 100), (20, 200), (30, 300)], none⟩ : Store Nat Nat Unit).range
        (RBound.included 10) (RBound.included 30) =
        (0, [(10, 100), (20, 200), (30, 300)])
    ∧ (⟨[(10, 100), (20, 200), (30, 300)], none⟩ : Store Nat Nat Unit).range
        (RBound.included 31) RBound.unbounded = (0, []) := by
  refine ⟨?_, ?_, by decide, by decide, by decide⟩
  · intro K T M _ st sb eb h
    simp [Store.range, h]
  · intro K T M _ st sb eb h
    by_cases he : st.store.isEmpty
    · simp [Store.range, he]
    · simp [Store.range, he, h]

/-- C7 witness: the empty-store and coinciding-bounds cases of `range` at
concrete inputs. -/
theorem C7_range_witness :
    (Store.new false : Store Nat Nat Unit).range RBound.unbounded
      RBound.unbounded = (0, [])
    ∧ (⟨[(1, 5)], none⟩ : Store Nat Nat Unit).range (RBound.included 2)
      (RBound.excluded 2) = (0, []) :=
  ⟨C7_range.1 Nat Nat Unit (Store.new false) _ _ rfl,
   C7_range.2.1 Nat Nat Unit _ _ _ (by decide)⟩

/-- C8 counterexample: the bulk round-trip fails as stated when an added key
already exists.  `bulk_add [(1, 20)]` displaces the prior value 10 at key 1;
the following `bulk_remove [1]` deletes the key entirely, so the store ends
empty instead of regaining its prior contents. -/
theorem C8_counterexample :
    (((⟨[(1, 10)], none⟩ : Store Nat Nat Unit).bulk_add [(1, 20)]
        ()).2.bulk_remove [1] ()).2.store = []
    ∧ (((⟨[(1, 10)], none⟩ : Store Nat Nat Unit).bulk_add [(1, 20)]
        ()).2.bulk_remove [1] ()).2.store ≠
      (⟨[(1, 10)], none⟩ : Store Nat Nat Unit).store := by
  exact ⟨by decide, by decide⟩

/-- C8 amended: `bulk_add(entries)` followed by `bulk_remove` of the same
key set returns the store to its prior contents and prior length, provided
none of the added keys was already present in the store at the start. -/
theorem C8_bulk_round_trip_amended {K T M : Type} [LinearOrder K] :
    ∀ (st : Store K T M) (recs : List (K × T)) (m1 m2 : M),
      keySorted st.store →
      (∀ k ∈ recs.map Prod.fst, lookupKey st.store k = none) →
      ((st.bulk_add recs m1).2.bulk_remove (recs.map Prod.fst) m2).2.store
          = st.store
      ∧ ((st.bulk_add recs m1).2.bulk_remove (recs.map Prod.fst) m2).2.len
          = st.len := by
  intro st recs m1 m2 hsorted hfresh
  have hstore :
      ((st.bulk_add recs m1).2.bulk_remove (recs.map Prod.fst) m2).2.store
        = st.store := by
    rw [Store.bulk_remove_store, Store.bulk_add_store]
    apply keySorted_ext
      (keySorted_bulkRemoveGo (keySorted_bulkAddGo hsorted)) hsorted
    intro x
    rw [lookupKey_bulkRemoveGo (keySorted_bulkAddGo hsorted)]
    by_cases hx : x ∈ recs.map Prod.fst
    · rw [if_pos hx, hfresh x hx]
    · rw [if_neg hx, lookupKey_bulkAddGo hsorted]
      have hrev : lookupKey recs.reverse x = none := by
        apply lookupKey_eq_none_iff.mpr
        intro p hp hpx
        exact hx (List.mem_map.mpr ⟨p, List.mem_reverse.mp hp, hpx⟩)
      rw [hrev]
      rfl
  exact ⟨hstore, by simp [Store.len, hstore]⟩

/-- C8 witness: a fresh-key bulk add followed by removal of those keys on a
concrete store. -/
theorem C8_bulk_round_trip_amended_witness :
    (((⟨[(1, 10)], none⟩ : Store Nat Nat Unit).bulk_add [(2, 20), (3, 30)]
        ()).2.bulk_remove [2, 3] ()).2.store =
      (⟨[(1, 10)], none⟩ : Store Nat Nat Unit).store
    ∧ (((⟨[(1, 10)], none⟩ : Store Nat Nat Unit).bulk_add [(2, 20), (3, 30)]
        ()).2.bulk_remove [2, 3] ()).2.len =
      (⟨[(1, 10)], none⟩ : Store Nat Nat Unit).len :=
  C8_bulk_round_trip_amended _ [(2, 20), (3, 30)] () () (by decide) (by decide)

/-- C1 counterexample: in `Store::change`, a pair whose `old_key` is absent
from the store is NOT inserted: on the empty store,
`change [(5, (1, 7))]` leaves the store empty instead of inserting
`(1, 7)`. -/
theorem C1_counterexample :
    ((Store.new false : Store Nat Nat Unit).change [(5, (1, 7))] ()).2.store
        = []
    ∧ (1, 7) ∉ ((Store.new false : Store Nat Nat Unit).change [(5, (1, 7))]
        ()).2.store := by
  exact ⟨by decide, by decide⟩

/-- C1 amended: `change` first removes every `old_key` entry present in the
store (collecting its displaced value) and then inserts `(new_key,
new_value)` for exactly those pairs whose `old_key` was present; a pair
whose `old_key` was absent is skipped entirely (neither removed nor
inserted); any entry occupying a `new_key` at insertion time is displaced
and returned as the result. -/
theorem C1_change_amended :
    (∀ (K T M : Type) [LinearOrder K] (st : Store K T M)
        (ft : List (K × (K × T))) (m : M),
      (∀ p ∈ ft, lookupKey st.store p.1 = none) →
      (st.change ft m).1 = [] ∧ (st.change ft m).2.store = st.store)
    ∧ (∀ (K T M : Type) [LinearOrder K] (st : Store K T M) (k nk : K)
        (nv v : T) (m : M),
      keySorted st.store → lookupKey st.store k = some v →
      lookupKey (st.change [(k, (nk, nv))] m).2.store nk = some nv
      ∧ (∀ x, x ≠ k → x ≠ nk →
          lookupKey (st.change [(k, (nk, nv))] m).2.store x =
            lookupKey st.store x)
      ∧ (k ≠ nk →
          lookupKey (st.change [(k, (nk, nv))] m).2.store k = none))
    ∧ (∀ (K T M : Type) [LinearOrder K] (st : Store K T M) (k nk : K)
        (nv v w : T) (m : M),
      keySorted st.store → lookupKey st.store k = some v → nk ≠ k →
      lookupKey st.store nk = some w →
      (st.change [(k, (nk, nv))] m).1 = [(nk, w)]
      ∧ lookupKey (st.change [(k, (nk, nv))] m).2.store nk = some nv)
    ∧ (∀ (K T M : Type) [LinearOrder K] (st : Store K T M) (k nk : K)
        (nv v : T) (m : M),
      keySorted st.store → lookupKey st.store k = some v →
      lookupKey st.store nk = none →
      (st.change [(k, (nk, nv))] m).1 = [])
    ∧ ((⟨[(1, 10), (2, 20)], none⟩ : Store Nat Nat Unit).change
        [(1, (2, 30)), (2, (3, 40))] ()).2.store = [(2, 30), (3, 40)]
    ∧ ((⟨[(1, 10), (2, 20)], none⟩ : Store Nat Nat Unit).change
        [(1, (2, 30)), (2, (3, 40))] ()).1 = []
    ∧ ((⟨[(1, 10), (2, 20)], none⟩ : Store Nat Nat Unit).change
        [(1, (2, 30))] ()).1 = [(2, 20)]
    ∧ ((⟨[(1, 10), (2, 20)], none⟩ : Store Nat Nat Unit).change
        [(1, (2, 30))] ()).2.store = [(2, 30)] := by
  refine ⟨?_, ?_, ?_, ?_, by decide, by decide, by decide, by decide⟩
  · intro K T M _ st ft m h
    have hr := changeRemoveGo_absent h
    constructor
    · rw [Store.change_ret, hr]
      rfl
    · rw [Store.change_store, hr]
      rfl
  · intro K T M _ st k nk nv v m hsorted hl
    have hfst : (remove_internal st.store k).1 = some (k, v) := by
      rw [remove_internal_fst hsorted, hl]
      rfl
    cases heq : remove_internal st.store k with
    | mk fst snd =>
      rw [heq] at hfst
      subst hfst
      have hone : changeRemoveGo st.store [(k, (nk, nv))] =
          ([((k, v), (nk, nv))], snd) := changeRemoveGo_single heq
      have hstore : (st.change [(k, (nk, nv))] m).2.store =
          (add_internal snd nk nv).2 := by
        rw [Store.change_store, hone, changeAddGo_single_snd]
      have hsnd : snd = (remove_internal st.store k).2 := by rw [heq]
      refine ⟨?_, ?_, ?_⟩
      · rw [hstore, lookupKey_add_internal]
        simp
      · intro x hxk hxnk
        rw [hstore, lookupKey_add_internal, if_neg hxnk, hsnd,
          lookupKey_remove_internal hsorted, if_neg hxk]
      · intro hknk
        rw [hstore, lookupKey_add_internal, if_neg hknk, hsnd,
          lookupKey_remove_internal hsorted, if_pos rfl]
  · intro K T M _ st k nk nv v w m hsorted hl hnk hw
    have hfst : (remove_internal st.store k).1 = some (k, v) := by
      rw [remove_internal_fst hsorted, hl]
      rfl
    cases heq : remove_internal st.store k with
    | mk fst snd =>
      rw [heq] at hfst
      subst hfst
      have hone : changeRemoveGo st.store [(k, (nk, nv))] =
          ([((k, v), (nk, nv))], snd) := changeRemoveGo_single heq
      have hsnd : snd = (remove_internal st.store k).2 := by rw [heq]
      have hsortsnd : keySorted snd := by
        rw [hsnd]
        exact keySorted_remove_internal hsorted
      have hlsnd : lookupKey snd nk = some w := by
        rw [hsnd, lookupKey_remove_internal hsorted, if_neg hnk, hw]
      have haddfst : (add_internal snd nk nv).1 = some w := by
        rw [add_internal_fst hsortsnd, hlsnd]
      constructor
      · rw [Store.change_ret, hone, changeAddGo_single_fst_some _ haddfst]
      · rw [Store.change_store, hone, changeAddGo_single_snd,
          lookupKey_add_internal]
        simp
  · intro K T M _ st k nk nv v m hsorted hl hw
    have hfst : (remove_internal st.store k).1 = some (k, v) := by
      rw [remove_internal_fst hsorted, hl]
      rfl
    cases heq : remove_internal st.store k with
    | mk fst snd =>
      rw [heq] at hfst
      subst hfst
      have hone : changeRemoveGo st.store [(k, (nk, nv))] =
          ([((k, v), (nk, nv))], snd) := changeRemoveGo_single heq
      have hsnd : snd = (remove_internal st.store k).2 := by rw [heq]
      have hsortsnd : keySorted snd := by
        rw [hsnd]
        exact keySorted_remove_internal hsorted
      have hlsnd : lookupKey snd nk = none := by
        rw [hsnd, lookupKey_remove_internal hsorted]
        by_cases hx : nk = k
        · simp [hx]
        · rw [if_neg hx, hw]
      have haddfst : (add_internal snd nk nv).1 = none := by
        rw [add_internal_fst hsortsnd, hlsnd]
      rw [Store.change_ret, hone, changeAddGo_single_fst_none _ haddfst]

/-- C1 witness: the amended change semantics at concrete inputs (a skipped
absent pair, a present pair moved to a fresh key, and a present pair moved
onto an occupied key whose entry is displaced and returned). -/
theorem C1_change_amended_witness :
    ((⟨[(1, 10)], none⟩ : Store Nat Nat Unit).change [(5, (2, 7))] ()).1 = []
    ∧ lookupKey ((⟨[(1, 10)], none⟩ : Store Nat Nat Unit).change
        [(1, (2, 7))] ()).2.store 2 = some 7
    ∧ ((⟨[(1, 10), (2, 20)], none⟩ : Store Nat Nat Unit).change
        [(1, (2, 30))] ()).1 = [(2, 20)]
    ∧ ((⟨[(1, 10)], none⟩ : Store Nat Nat Unit).change [(1, (2, 7))] ()).1
        = [] :=
  ⟨(C1_change_amended.1 Nat Nat Unit _ [(5, (2, 7))] () (by decide)).1,
   (C1_change_amended.2.1 Nat Nat Unit _ 1 2 7 10 () (by decide)
     (by decide)).1,
   (C1_change_amended.2.2.1 Nat Nat Unit _ 1 2 30 10 20 () (by decide)
     (by decide) (by decide) (by decide)).1,
   C1_change_amended.2.2.2.1 Nat Nat Unit _ 1 2 7 10 () (by decide)
     (by decide) (by decide)⟩

/-- Modelled from the spec: the Bag Store `change` as the spec describes it,
a two-phase batch in which all (from_key, from_value) removals are completed
before any (to_key, to_value) insertion is performed.  Used only to compare
the spec's wording against the implementation. -/
def BagStore.changeTwoPhase {K T M : Type} [LinearOrder K] [DecidableEq T]
    (st : BagStore K T M) (changes : List ((K × T) × (K × T))) :
    BagStore K T M :=
  let st1 := changes.foldl (fun s p => (s.remove_internal p.1.1 p.1.2).2) st
  let st2 := changes.foldl (fun s p => s.add_internal p.2.1 p.2.2) st1
  st2.fireEvent (BagStoreEvent.Change changes)

/-- C3 counterexample: `BagStore::change` is not two-phase.  It interleaves
each pair's removal with its insertion, so on the empty store the batch
`[((5,0),(1,1)), ((1,1),(2,2))]` first inserts `(1,1)` and then the second
pair's removal deletes that freshly inserted value, ending with only key 2
occupied — the two-phase reading of the spec would keep both keys 1 and 2. -/
theorem C3_counterexample :
    ((BagStore.new false : BagStore Nat Nat Unit).change
        [((5, 0), (1, 1)), ((1, 1), (2, 2))]).store = [(2, [2])]
    ∧ ((BagStore.new false : BagStore Nat Nat Unit).changeTwoPhase
        [((5, 0), (1, 1)), ((1, 1), (2, 2))]).store = [(1, [1]), (2, [2])]
    ∧ ((BagStore.new false : BagStore Nat Nat Unit).change
        [((5, 0), (1, 1)), ((1, 1), (2, 2))]).store ≠
      ((BagStore.new false : BagStore Nat Nat Unit).changeTwoPhase
        [((5, 0), (1, 1)), ((1, 1), (2, 2))]).store := by
  exact ⟨by decide, by decide, by decide⟩

/-- C3 amended: `BagStore::change` applies each (from, to) pair in order,
removing the (from_key, from_value) pair and immediately inserting the
(to_key, to_value) pair — on a single-pair batch this coincides with the
two-phase semantics.  On a store holding values Hello and World at key 0
with recording enabled, `change [((0, Hello), (1, Foo))]` leaves key 0
holding only World and key 1 holding Foo, and appends exactly one change
event carrying ((0, Hello), (1, Foo)). -/
theorem C3_change_amended :
    (∀ (K T M : Type) [LinearOrder K] [DecidableEq T]
        (st : BagStore K T M) (p : (K × T) × (K × T)),
      st.change [p] = st.changeTwoPhase [p])
    ∧ ((((BagStore.new true : BagStore Nat String Unit).add 0 "Hello").add 0
        "World").change [((0, "Hello"), (1, "Foo"))]).get 0 = ["World"]
    ∧ ((((BagStore.new true : BagStore Nat String Unit).add 0 "Hello").add 0
        "World").change [((0, "Hello"), (1, "Foo"))]).get 1 = ["Foo"]
    ∧ ((((BagStore.new true : BagStore Nat String Unit).add 0 "Hello").add 0
        "World").change [((0, "Hello"), (1, "Foo"))]).events =
      some [BagStoreEvent.Add "Hello", BagStoreEvent.Add "World",
        BagStoreEvent.Change [((0, "Hello"), (1, "Foo"))]] := by
  refine ⟨?_, by decide, by decide, by decide⟩
  intro K T M _ _ st p
  obtain ⟨f, t⟩ := p
  rfl
